import Mathlib

/-!
# Verification of `cooklang-to-human` (src/cooklang-to-human/src/lib.rs)

A shallow embedding of the human-readable recipe renderer.  The renderer walks
an immutable, already-parsed and already-scaled recipe model and writes a
sequence of text chunks to an output sink.

Modelling conventions, stated once here:

* Terminal styling (the external `yansi` crate) is out of scope per the spec
  (§1: the core only decides *which* semantic style to apply).  `paint` is
  therefore the identity on the rendered text.
* Rust panics (`unreachable!()`, out-of-range indexing, `HashMap` indexing on
  a missing key, `Option::unwrap`) are modelled by `Option`: a `none` result
  of a rendering function means the source panics on that input.
* `usize` arithmetic wraps modulo `2 ^ 64`.
* The `HashMap<&str, Vec<usize>>` of `build_step_igrs_dedup` is modelled as an
  association list in key-insertion order; lookups are by key, and the
  iteration-order independence of the source's map is proved (claim about
  deterministic rendering) by quantifying over permutations of that list.
* Data produced by the external `cooklang` crate (ingredient relations,
  grouped ingredients, metadata accessors) is carried as fields of the model
  types, following the spec's data model (§3).
-/

namespace CookHuman

/-- A quantity: the display form of its numeric value plus an optional unit
(spec §3, `Quantity`). -/
structure Quantity where
  value : String
  unit : Option String
deriving DecidableEq

/-- Modelled from the spec: the `cooklang` crate's `IngredientReferenceTarget`
(target-kind tag of an ingredient relation, spec §3). -/
inductive RefTarget where
  | ingredient
  | step
  | sect
deriving DecidableEq

/-- An ingredient of the recipe's global ingredient array (spec §3).
`referencesTo` models the `cooklang` crate's `relation.references_to()`:
an optional target index plus target kind.  `shouldBeListed` and `isOptional`
model the crate's modifier accessors. -/
structure Ingredient where
  name : String
  displayName : String
  quantity : Option Quantity
  note : Option String
  isOptional : Bool
  shouldBeListed : Bool
  referencesTo : Option (Nat × RefTarget)
deriving DecidableEq

/-- Modelled from the spec (glossary: *intermediate reference* denotes the
result of a prior step/section): the `cooklang` crate's
`relation.is_intermediate_reference()`. -/
def Ingredient.isIntermediateReference (igr : Ingredient) : Bool :=
  match igr.referencesTo with
  | some (_, RefTarget.step) => true
  | some (_, RefTarget.sect) => true
  | _ => false

/-- A timer: optional quantity, optional name (spec §3). -/
structure Timer where
  quantity : Option Quantity
  name : Option String
deriving DecidableEq

/-- A cookware item.  `groupAmounts` models the display forms returned by the
`cooklang` crate's `group_amounts` (spec §4.5: grouped amounts, no scale
outcome). -/
structure Cookware where
  name : String
  displayName : String
  isOptional : Bool
  shouldBeListed : Bool
  groupAmounts : List String
  note : Option String
deriving DecidableEq

/-- One item of a step (source `Item`, spec §3): tagged variant over text and
index-addressed references into the recipe-level arrays. -/
inductive Item where
  | text (value : String)
  | ingredient (index : Nat)
  | cookware (index : Nat)
  | timer (index : Nat)
  | inlineQuantity (index : Nat)
deriving DecidableEq

/-- A step: display number and ordered items (spec §3). -/
structure Step where
  number : Nat
  items : List Item
deriving DecidableEq

/-- Section content: a step or free text (source `cooklang::Content`). -/
inductive Content where
  | step (s : Step)
  | text (t : String)
deriving DecidableEq

/-- `Content::unwrap_step` of the `cooklang` crate: panics (here `none`) on
free text. -/
def Content.unwrapStep : Content → Option Step
  | Content.step s => some s
  | Content.text _ => none

/-- A section: optional name plus ordered content (spec §3). -/
structure Section where
  name : Option String
  content : List Content
deriving DecidableEq

/-- Scale outcome of one grouped ingredient (spec §3). -/
inductive ScaleOutcome where
  | scaled
  | fixed
  | error (details : String)
  | noQuantity
deriving DecidableEq

/-- Modelled from the spec: one entry of the `cooklang` crate's
`group_ingredients` output (spec §3, `GroupedIngredient`): an ingredient, its
combined quantities, and an optional scale outcome. -/
structure GroupedIngredient where
  ingredient : Ingredient
  quantity : List Quantity
  outcome : Option ScaleOutcome
deriving DecidableEq

/-- Modelled from the spec: an author/source metadata value with optional
name and url. -/
structure NameUrl where
  name : Option String
  url : Option String
deriving DecidableEq

/-- Modelled from the spec: the `cooklang` crate's `RecipeTime` (total
minutes, or composed prep/cook minutes). -/
inductive RecipeTime where
  | total (t : Nat)
  | composed (prepTime : Option Nat) (cookTime : Option Nat)
deriving DecidableEq

/-- Total minutes of a `RecipeTime` (the crate's `time.total()`). -/
def RecipeTime.totalMinutes : RecipeTime → Nat
  | RecipeTime.total t => t
  | RecipeTime.composed p c => p.getD 0 + c.getD 0

/-- Modelled from the spec: scaling context (`recipe.scaled_data()`), with the
selected servings index, if any, and the target servings count. -/
structure ScaledData where
  targetIndex : Option Nat
  targetServings : Nat
deriving DecidableEq

/-- Modelled from the spec: the metadata accessors the renderer consumes
(emoji, tags, description, author, source, time, servings, remaining
string-like entries, and emptiness of the raw map). -/
structure Metadata where
  emoji : Option String
  tags : Option (List String)
  description : Option String
  author : Option NameUrl
  source : Option NameUrl
  time : Option RecipeTime
  servings : Option (List Nat)
  filtered : List (String × String)
  mapIsEmpty : Bool
deriving DecidableEq

/-- The scaled recipe (spec §3): global index-addressed arrays, sections,
metadata, aggregation output and scaling context. -/
structure Recipe where
  metadata : Metadata
  sections : List Section
  ingredients : List Ingredient
  cookware : List Cookware
  timers : List Timer
  inlineQuantities : List Quantity
  groupedIngredients : List GroupedIngredient
  scaledData : Option ScaledData
  isDefaultScaled : Bool
deriving DecidableEq

/-! ## Basic formatting helpers -/

/-- Styling is out of scope (spec §1, §4): `yansi`'s `paint` and friends only
wrap the text in terminal escape codes, which the text model ignores, so
`paint` is the identity on the rendered text. -/
def paint (s : String) : String := s

/-- `quantity_fmt` (source lines 502-508): value, then the unit if present. -/
def quantityFmt (qty : Quantity) : String :=
  match qty.unit with
  | some unit => qty.value ++ " " ++ paint unit
  | none => qty.value

/-- Digit-to-subscript-glyph map (source `write_subscript`, lines 510-527). -/
def subChar (c : Char) : Char :=
  match c with
  | '0' => '₀'
  | '1' => '₁'
  | '2' => '₂'
  | '3' => '₃'
  | '4' => '₄'
  | '5' => '₅'
  | '6' => '₆'
  | '7' => '₇'
  | '8' => '₈'
  | '9' => '₉'
  | _ => c

/-- The subscript form of a digit string (spec §4.2). -/
def subscriptStr (s : String) : String :=
  String.mk (s.data.map subChar)

/-- `write_subscript` (source lines 510-527): pushes each character of `s`,
digit-mapped, onto the buffer. -/
def writeSubscript (buffer : String) (s : String) : String :=
  buffer ++ subscriptStr s

/-- Rust's `str::trim`: strip leading and trailing whitespace, modelled at
the character level. -/
def trimChars (s : String) : String :=
  String.mk
    (((s.data.dropWhile Char.isWhitespace).reverse.dropWhile
        Char.isWhitespace).reverse)

/-- Joins with a separator: Rust's `iter().reduce(|a, b| a ++ sep ++ b)`
followed by `unwrap_or_default()`. -/
def reduceSep (sep : String) : List String → String
  | [] => ""
  | x :: xs => xs.foldl (fun a b => a ++ sep ++ b) x

/-! ## Tag colors (source `tag_color`, lines 67-85) -/

/-- `usize` modulus. -/
def USIZE : Nat := 2 ^ 64

/-- `tag.chars().enumerate().map(|(i, c)| c as usize * i)`
`.reduce(usize::wrapping_add)`: `none` on the empty string. -/
def reduceWrappingAdd : List Nat → Option Nat
  | [] => none
  | x :: xs => some (xs.foldl (fun a b => (a + b) % USIZE) x)

/-- The hash of `tag_color` (source lines 68-74): wrapping sum of
`char_value * position`, reduced mod 7, defaulting to 0 for the empty tag. -/
def tagHash (tag : String) : Nat :=
  (((reduceWrappingAdd ((tag.data.enum.map
      (fun p => (p.2.toNat * p.1) % USIZE))))).map (· % 7)).getD 0

/-- The seven `yansi` palette colors used by `tag_color`. -/
inductive YansiColor where
  | red
  | blue
  | cyan
  | yellow
  | green
  | magenta
  | white
deriving DecidableEq

/-- The fixed palette, in the order of the `match` in `tag_color`
(source lines 75-84). -/
def palette : List YansiColor :=
  [YansiColor.red, YansiColor.blue, YansiColor.cyan, YansiColor.yellow,
   YansiColor.green, YansiColor.magenta, YansiColor.white]

/-- `tag_color` (source lines 67-85): palette entry selected by the hash;
`none` models the `unreachable!()` arm. -/
def tagColor (tag : String) : Option YansiColor :=
  palette[tagHash tag]?

/-! ## Per-step ingredient grouping (source `build_step_igrs_dedup`,
lines 452-481) -/

/-- Association-list lookup by key (the model of `HashMap` key access). -/
def alookup (l : List (String × List Nat)) (k : String) : Option (List Nat) :=
  match l with
  | [] => none
  | (k', v) :: rest => if k' = k then some v else alookup rest k

/-- `step_igrs_dedup.entry(&igr.name).or_default().push(*index)`: append
`v` to the entry of key `k`, creating the entry at the end on a miss. -/
def alInsert (l : List (String × List Nat)) (k : String) (v : Nat) :
    List (String × List Nat) :=
  match l with
  | [] => [(k, [v])]
  | (k', vs) :: rest =>
    if k' = k then (k', vs ++ [v]) :: rest else (k', vs) :: alInsert rest k v

/-- The grouping pass of `build_step_igrs_dedup` (source lines 458-464):
fold the step's items, pushing each ingredient item's index onto the group of
its ingredient's name.  `none` models the panic of `recipe.ingredients[index]`
on an out-of-range index. -/
def buildGroups (r : Recipe) :
    List Item → List (String × List Nat) → Option (List (String × List Nat))
  | [], m => some m
  | Item.ingredient idx :: rest, m => do
    let igr ← r.ingredients[idx]?
    buildGroups r rest (alInsert m igr.name idx)
  | Item.text _ :: rest, m => buildGroups r rest m
  | Item.cookware _ :: rest, m => buildGroups r rest m
  | Item.timer _ :: rest, m => buildGroups r rest m
  | Item.inlineQuantity _ :: rest, m => buildGroups r rest m

/-- The retain predicate of the filter pass (source lines 472-475): keep an
occurrence iff it has a quantity or is an intermediate reference.  `none`
models the panic of `recipe.ingredients[i]` on an out-of-range index. -/
def keepIgr (r : Recipe) (i : Nat) : Option Bool :=
  (r.ingredients[i]?).map
    (fun igr => igr.quantity.isSome || igr.isIntermediateReference)

/-- `Vec::retain` over one group with the `keepIgr` predicate (source lines
472-475): keep members in order, drop the rest. -/
def retainLoop (r : Recipe) : List Nat → Option (List Nat)
  | [] => some []
  | i :: rest => do
    let b ← keepIgr r i
    let rest' ← retainLoop r rest
    pure (if b then i :: rest' else rest')

/-- The filter pass of `build_step_igrs_dedup` for one group (source lines
470-479): remember the first member (`first().copied().unwrap()`, `none` on an
empty group), retain the informative members, and fall back to the first
member if none survive. -/
def filterGroup (r : Recipe) (g : List Nat) : Option (List Nat) := do
  let first ← g.head?
  let g' ← retainLoop r g
  pure (if g'.isEmpty then [first] else g')

/-- The `values_mut` loop of `build_step_igrs_dedup` (source lines 470-479):
filter every group in place, keeping keys and their order. -/
def filterGroupsLoop (r : Recipe) :
    List (String × List Nat) → Option (List (String × List Nat))
  | [] => some []
  | (k, v) :: rest => do
    let v' ← filterGroup r v
    let rest' ← filterGroupsLoop r rest
    pure ((k, v') :: rest')

/-- `build_step_igrs_dedup` (source lines 452-481): group the step's
ingredient occurrences by name, then filter each group in place. -/
def buildStepIgrsDedup (step : Step) (r : Recipe) :
    Option (List (String × List Nat)) := do
  let groups ← buildGroups r step.items []
  filterGroupsLoop r groups

/-! ## Inline subscript rendering (source `write_igr_count`, lines 483-500) -/

/-- `write_igr_count` (source lines 483-500): look up the post-filter group of
`name` (`step_igrs[name]`, `none` = panic on a missing key); no subscript when
the group has at most one member; otherwise the 1-based position of `index`
within the post-filter group, appended as a subscript, or nothing when
`index` was filtered out. -/
def writeIgrCount (buffer : String) (stepIgrs : List (String × List Nat))
    (index : Nat) (name : String) : Option (String × Option Nat) := do
  let entries ← alookup stepIgrs name
  if entries.length ≤ 1 then
    pure (buffer, none)
  else
    match entries.findIdx? (· = index) with
    | some pos => pure (writeSubscript buffer (toString (pos + 1)), some (pos + 1))
    | none => pure (buffer, none)

/-- The timer arm of `step_text` (source lines 363-387): quantity and name,
only quantity, or only name; `none` models the `unreachable!()` on a timer
with neither. -/
def timerText (t : Timer) : Option String :=
  match t.quantity, t.name with
  | some q, some n => some (paint (quantityFmt q) ++ " (" ++ paint n ++ ")")
  | some q, none => some (paint (quantityFmt q))
  | none, some n => some (paint n)
  | none, none => none

/-- The two buffers maintained by the item walk of `step_text`:
the narrative text and the queued legend entries `(ingredient, subscript)`
(source lines 335-341). -/
structure StepAcc where
  text : String
  line : List (Ingredient × Option Nat)
deriving DecidableEq

/-- The item walk of `step_text` (source lines 343-399), one constructor arm
per `Item` variant; `none` models the panics (out-of-range index, missing map
key, timer with neither quantity nor name). -/
def stepTextCore (r : Recipe) (dedup : List (String × List Nat)) :
    List Item → StepAcc → Option StepAcc
  | [], acc => some acc
  | Item.text v :: rest, acc =>
    stepTextCore r dedup rest ⟨acc.text ++ v, acc.line⟩
  | Item.ingredient idx :: rest, acc => do
    let igr ← r.ingredients[idx]?
    let text := acc.text ++ paint igr.displayName
    let (text, pos) ← writeIgrCount text dedup idx igr.name
    let g ← alookup dedup igr.name
    let line := if g.contains idx then acc.line ++ [(igr, pos)] else acc.line
    stepTextCore r dedup rest ⟨text, line⟩
  | Item.cookware idx :: rest, acc => do
    let cw ← r.cookware[idx]?
    stepTextCore r dedup rest ⟨acc.text ++ paint cw.name, acc.line⟩
  | Item.timer idx :: rest, acc => do
    let t ← r.timers[idx]?
    let s ← timerText t
    stepTextCore r dedup rest ⟨acc.text ++ s, acc.line⟩
  | Item.inlineQuantity idx :: rest, acc => do
    let q ← r.inlineQuantities[idx]?
    stepTextCore r dedup rest ⟨acc.text ++ paint (quantityFmt q), acc.line⟩

/-- `inter_ref_text` (source lines 439-450).  The outer `Option` models
panics: indexing `section.content[target_step]` out of range, or
`unwrap_step` on free text.  The inner `Option` is the source's return
value. -/
def interRefText (igr : Ingredient) (sec : Section) : Option (Option String) :=
  match igr.referencesTo with
  | some (targetSect, RefTarget.sect) =>
    some (some ("section " ++ toString (targetSect + 1)))
  | some (targetStep, RefTarget.step) => do
    let c ← sec.content[targetStep]?
    let st ← c.unwrapStep
    pure (some ("step " ++ toString st.number))
  | _ => some none

/-- One legend entry appended onto the buffer, field writes in source order
(source lines 408-430): display name, subscript, optional marker,
cross-reference, quantity. -/
def legendEntryAppend (sec : Section) (buffer : String) (igr : Ingredient)
    (pos : Option Nat) : Option String := do
  let buffer := buffer ++ paint igr.displayName
  let buffer :=
    match pos with
    | some p => writeSubscript buffer (toString p)
    | none => buffer
  let buffer := if igr.isOptional then buffer ++ paint " (opt)" else buffer
  let src ← interRefText igr sec
  let buffer :=
    match src with
    | some s => buffer ++ paint (" from " ++ s)
    | none => buffer
  let buffer :=
    match igr.quantity with
    | some q => buffer ++ ": " ++ paint (quantityFmt q)
    | none => buffer
  pure buffer

/-- The legend loop of `step_text` (source lines 407-434): each entry followed
by `", "` except the last (`i != step_igrs_line.len() - 1`, equivalently: the
rest is nonempty). -/
def legendLoop (sec : Section) :
    String → List (Ingredient × Option Nat) → Option String
  | buffer, [] => some buffer
  | buffer, (igr, pos) :: rest => do
    let buffer ← legendEntryAppend sec buffer igr pos
    legendLoop sec (if rest.isEmpty then buffer else buffer ++ ", ") rest

/-- The legend line of `step_text` (source lines 401-436): the literal
placeholder `[-]` when no entry was queued, otherwise the bracketed joined
entries. -/
def legendText (sec : Section) (line : List (Ingredient × Option Nat)) :
    Option String :=
  if line.isEmpty then some "[-]"
  else (legendLoop sec "[" line).map (· ++ "]")

/-- `step_text` after the dedup map is fixed (everything in source lines
334-437 below line 337): the item walk, then the legend line. -/
def stepTextWithDedup (r : Recipe) (sec : Section) (step : Step)
    (dedup : List (String × List Nat)) : Option (String × String) := do
  let acc ← stepTextCore r dedup step.items ⟨"", []⟩
  let legend ← legendText sec acc.line
  pure (acc.text, legend)

/-- `step_text` (source lines 334-437): build the dedup map, then render. -/
def stepText (r : Recipe) (sec : Section) (step : Step) :
    Option (String × String) :=
  (buildStepIgrsDedup step r).bind (stepTextWithDedup r sec step)

/-! ## Whole-recipe ingredient table (source `ingredients`, lines 172-244) -/

/-- The fixed-value glyph cell suffix (source line 180, with its leading
space). -/
def trinagle : String := " ⚠"

/-- The scaling-error glyph cell suffix (source line 181, with its leading
space). -/
def octagon : String := " ⯃"

/-- Whether a grouped entry's outcome is `Fixed` (sets `is_fixed` /
`there_is_fixed` in the source, lines 196-199). -/
def entryFixed (e : GroupedIngredient) : Bool :=
  e.outcome = some ScaleOutcome.fixed

/-- Whether a grouped entry's outcome is `Error` (sets `is_err` /
`there_is_err` in the source, lines 201-204). -/
def entryErr (e : GroupedIngredient) : Bool :=
  match e.outcome with
  | some (ScaleOutcome.error _) => true
  | _ => false

/-- The glyph appended to the quantity cell (source lines 194-208): the
triangle for `Fixed`, the octagon for `Error`, empty otherwise (including a
missing outcome, `unwrap_or_default`). -/
def outcomeChar (o : Option ScaleOutcome) : String :=
  match o with
  | some ScaleOutcome.fixed => trinagle
  | some (ScaleOutcome.error _) => octagon
  | _ => ""

/-- The comma-joined formatted quantities of one table row (source lines
215-219). -/
def igrContent (e : GroupedIngredient) : String :=
  reduceSep ", " (e.quantity.map (fun q => paint (quantityFmt q)))

/-- One ingredient-table row's four cells (source lines 209-227): display
name; optional marker; quantities with outcome glyph; note. -/
def igrRow (e : GroupedIngredient) : List String :=
  [e.ingredient.displayName,
   if e.ingredient.isOptional then paint "(optional)" else "",
   igrContent e ++ paint (outcomeChar e.outcome),
   match e.ingredient.note with
   | some n => "(" ++ n ++ ")"
   | none => ""]

/-- The grouped entries that pass `should_be_listed` (source lines 189-191). -/
def listedEntries (r : Recipe) : List GroupedIngredient :=
  r.groupedIngredients.filter (fun e => e.ingredient.shouldBeListed)

/-- The state of the `ingredients` loop: the table rows plus the two glyph
flags (source lines 177-179). -/
structure IgrTable where
  rows : List (List String)
  thereIsFixed : Bool
  thereIsErr : Bool
deriving DecidableEq

/-- The row loop of `ingredients` (source lines 182-228): skip unlisted
entries, add a row per listed entry, accumulate the glyph flags. -/
def ingredientsLoop : List GroupedIngredient → IgrTable → IgrTable
  | [], acc => acc
  | e :: rest, acc =>
    if e.ingredient.shouldBeListed then
      ingredientsLoop rest
        { rows := acc.rows ++ [igrRow e]
          thereIsFixed := acc.thereIsFixed || entryFixed e
          thereIsErr := acc.thereIsErr || entryErr e }
    else ingredientsLoop rest acc

/-- The completed ingredient table state. -/
def ingredientRows (r : Recipe) : IgrTable :=
  ingredientsLoop r.groupedIngredients ⟨[], false, false⟩

/-- The glyph-legend line content (source lines 230-241): the explanations of
only the glyphs that occurred, fixed first, `" | "` between both. -/
def scaleLegendLine (f e : Bool) : String :=
  (if f then paint (trimChars trinagle) ++ " " ++ paint "fixed value"
   else "") ++
  (if e then
    (if f then " | " else "") ++ paint (trimChars octagon) ++ " " ++
      paint "error scaling"
   else "")

/-- The glyph legend after the table, emitted only when a glyph occurred
(source lines 230-242). -/
def ingredientsScaleLegend (r : Recipe) : Option String :=
  let t := ingredientRows r
  if t.thereIsFixed || t.thereIsErr then
    some (scaleLegendLine t.thereIsFixed t.thereIsErr)
  else none

/-- Modelled from the spec: left-pad-free, right-pad-to-width cell of the
external tabular crate. -/
def padTo (w : Nat) (s : String) : String :=
  s ++ String.mk (List.replicate (w - s.length) ' ')

/-- Modelled from the spec: a column's width in the external tabular crate's
layout. -/
def colWidth (rows : List (List String)) (i : Nat) : Nat :=
  rows.foldl (fun w row => max w ((row[i]?.getD "").length)) 0

/-- Modelled from the spec: the external tabular crate's rendering of the row
template `"  {:<} {:<}    {:<} {:<}"`, one line per row. -/
def tableRender (rows : List (List String)) : String :=
  String.join (rows.map (fun row =>
    "  " ++ padTo (colWidth rows 0) (row[0]?.getD "") ++ " " ++
    padTo (colWidth rows 1) (row[1]?.getD "") ++ "    " ++
    padTo (colWidth rows 2) (row[2]?.getD "") ++ " " ++
    (row[3]?.getD "") ++ "\n"))

/-- The write chunks of `ingredients` (source lines 172-244): nothing when the
ingredient array is empty; otherwise the heading, the table, the optional
glyph legend (its consecutive `write!` calls modelled as one chunk, framed by
the two `writeln!` calls), and the final blank line. -/
def ingredientsWrites (r : Recipe) : List String :=
  if r.ingredients.isEmpty then []
  else
    let t := ingredientRows r
    ["Ingredients:", tableRender t.rows] ++
    (match ingredientsScaleLegend r with
     | some line => ["", line, ""]
     | none => []) ++ [""]

/-! ## Cookware table (source `cookware`, lines 246-287) -/

/-- One cookware-table row's four cells (source lines 257-282). -/
def cwRow (cw : Cookware) : List String :=
  [cw.displayName,
   if cw.isOptional then "(optional)" else "",
   if cw.groupAmounts.isEmpty then "" else reduceSep ", " cw.groupAmounts,
   match cw.note with
   | some n => "(" ++ n ++ ")"
   | none => ""]

/-- The write chunks of `cookware` (source lines 246-287): nothing when the
cookware array is empty; otherwise the heading and the table of listed
items. -/
def cookwareWrites (r : Recipe) : List String :=
  if r.cookware.isEmpty then []
  else
    ["Cookware:",
     tableRender ((r.cookware.filter (fun cw => cw.shouldBeListed)).map cwRow)]

/-! ## Text wrapping (spec §4.1; the textwrap crate is external) -/

/-- The process-wide width: minimum of the detected terminal width and the
80-column cap (source line 533-534); terminal detection is external, so the
cap is used. -/
def TERM_WIDTH : Nat := 80

/-- Modelled from the spec (§4.1 classifier mode 1): whitespace word
splitting of the external textwrap crate. -/
def splitWordsWs (s : String) : List String :=
  (s.splitOn " ").filter (fun w => ¬ w.isEmpty)

/-- Modelled from the spec (§4.1 classifier mode 2): split after every
literal `", "` (Rust `split_inclusive`), keeping the separator attached. -/
def splitInclusiveCommaSpace (s : String) : List String :=
  let parts := s.splitOn ", "
  let n := parts.length
  (parts.enum.map (fun p => if p.1 + 1 = n then p.2 else p.2 ++ ", ")).filter
    (fun w => ¬ w.isEmpty)

/-- Modelled from the spec (§4.1): greedy fill of words into lines, `sep`
joining words within a line, lines capped at `width` characters where
possible, `subseq` prefixed to continuation lines. -/
def greedyWrapLoop (width : Nat) (subseq sep : String) :
    List String → String → Bool → List String → List String
  | [], line, started, out => if started then out ++ [line] else out
  | w :: ws, line, started, out =>
    if started then
      let cand := line ++ sep ++ w
      if width < cand.length then
        greedyWrapLoop width subseq sep ws (subseq ++ w) true (out ++ [line])
      else
        greedyWrapLoop width subseq sep ws cand true out
    else
      greedyWrapLoop width subseq sep ws (line ++ w) true out

/-- Modelled from the spec (§4.1): wrap `words` with the given indents; empty
input produces no lines. -/
def wrapWith (width : Nat) (init subseq sep : String) (words : List String) :
    List String :=
  greedyWrapLoop width subseq sep words init false []

/-! ## Header and metadata (source `header` lines 44-65, `metadata`
lines 87-170) -/

/-- The tag loop of `header` (source lines 56-63): the per-tag color is
computed (and would panic on the unreachable palette miss), then painted,
which the text model drops. -/
def tagsLoop : List String → String → Option String
  | [], acc => some acc
  | tag :: rest, acc => do
    let _color ← tagColor tag
    tagsLoop rest (acc ++ paint ("#" ++ tag) ++ " ")

/-- The write chunks of `header` (source lines 44-65), continued. -/
def headerWrites (r : Recipe) (name : String) : Option (List String) := do
  let titleText :=
    " " ++ ((r.metadata.emoji.map (fun s => s ++ " ")).getD "") ++ name ++ " "
  let tagLines ←
    match r.metadata.tags with
    | some tags => do
      let tagsStr ← tagsLoop tags ""
      pure (wrapWith TERM_WIDTH "" "" " " (splitWordsWs tagsStr))
    | none => pure []
  pure ([paint titleText] ++ tagLines ++ [""])

/-- Modelled from the spec: the external humantime crate's duration display
(human-readable duration), approximated as days/hours/minutes/seconds. -/
def humanDuration (secs : Nat) : String :=
  if secs = 0 then "0s"
  else
    reduceSep " "
      (((if secs / 86400 = 0 then [] else [toString (secs / 86400) ++ "d"]) ++
        (if secs % 86400 / 3600 = 0 then []
         else [toString (secs % 86400 / 3600) ++ "h"]) ++
        (if secs % 3600 / 60 = 0 then []
         else [toString (secs % 3600 / 60) ++ "m"]) ++
        (if secs % 60 = 0 then [] else [toString (secs % 60) ++ "s"])))

/-- `meta_fmt` (source lines 95-96): one `"name: value"` line. -/
def metaFmt (name value : String) : String :=
  paint name ++ ": " ++ value

/-- `time_fmt` (source lines 106-111): minutes as a formatted duration. -/
def timeFmt (t : Nat) : String :=
  humanDuration (t * 60)

/-- The servings metadata text (source lines 128-157): the alternatives
joined by `|` with the selected index bracketed, plus the arrow to the target
servings when the exact target was not among the alternatives. -/
def servingsText (r : Recipe) (servings : List Nat) : String :=
  let index :=
    (r.scaledData.bind (fun d => d.targetIndex)).orElse
      (fun _ => if r.isDefaultScaled then some 0 else none)
  let text := reduceSep "|" (servings.enum.map (fun p =>
      if some p.1 = index then paint ("[" ++ toString p.2 ++ "]")
      else toString p.2))
  match r.scaledData with
  | some data =>
    if data.targetIndex.isNone then
      paint text ++ " " ++ paint "→" ++ " " ++
        paint (toString data.targetServings)
    else text
  | none => text

/-- The write chunks of `metadata` (source lines 87-170): wrapped description
block, author/source/time/servings lines, remaining string-like entries, and
a trailing blank line when the raw metadata map is nonempty. -/
def metadataWrites (r : Recipe) : List String :=
  (match r.metadata.description with
   | some desc =>
     wrapWith TERM_WIDTH "│ " "│" " " (splitWordsWs desc) ++ [""]
   | none => []) ++
  (match r.metadata.author with
   | some a => [metaFmt "author" ((a.name.or a.url).getD "-")]
   | none => []) ++
  (match r.metadata.source with
   | some s => [metaFmt "source" ((s.name.or s.url).getD "-")]
   | none => []) ++
  (match r.metadata.time with
   | some (RecipeTime.total t) => [metaFmt "time" (timeFmt t)]
   | some (RecipeTime.composed p c) =>
     ((p.map (fun x => [metaFmt "prep time" (timeFmt x)])).getD []) ++
     ((c.map (fun x => [metaFmt "cook time" (timeFmt x)])).getD []) ++
     [metaFmt "total time" (timeFmt ((RecipeTime.composed p c).totalMinutes))]
   | none => []) ++
  (match r.metadata.servings with
   | some servings => [metaFmt "servings" (servingsText r servings)]
   | none => []) ++
  (r.metadata.filtered.map (fun p => metaFmt p.1 p.2)) ++
  (if ¬ r.metadata.mapIsEmpty then [""] else [])

/-! ## Steps assembly (source `steps`, lines 289-332) -/

/-- Modelled from the spec: Rust's centering format `"{: ^width$}"`. -/
def centerPad (width : Nat) (s : String) : String :=
  let total := width - s.length
  let left := total / 2
  String.mk (List.replicate left ' ') ++ s ++
    String.mk (List.replicate (total - left) ' ')

/-- Rust's right-aligned width-2 number format `"{:>2}"`. -/
def rightAlign2 (n : Nat) : String :=
  let s := toString n
  if s.length < 2 then String.mk (List.replicate (2 - s.length) ' ') ++ s
  else s

/-- The write chunks of one content element (source lines 305-329): a step's
wrapped narrative (numbered prefix, 4-space continuation indent) followed by
its wrapped legend (5-space indents, comma word boundaries); free text as its
own blank-line-framed paragraph. -/
def contentWrites (r : Recipe) (sec : Section) (c : Content) :
    Option (List String) :=
  match c with
  | Content.step st => do
    let (text, legend) ← stepText r sec st
    let line := rightAlign2 st.number ++ ". " ++ trimChars text
    pure (wrapWith TERM_WIDTH "" "    " " " (splitWordsWs line) ++
          wrapWith TERM_WIDTH "     " "     " ""
            (splitInclusiveCommaSpace legend))
  | Content.text t =>
    some ([""] ++ wrapWith TERM_WIDTH "  " "" " " (splitWordsWs (trimChars t)) ++
      [""])

/-- The content loop of one section (source lines 305-329). -/
def contentsLoop (r : Recipe) (sec : Section) : List Content → Option (List String)
  | [] => some []
  | c :: rest => do
    let w ← contentWrites r sec c
    let ws ← contentsLoop r sec rest
    pure (w ++ ws)

/-- The write chunks of one section (source lines 291-329), continued. -/
def sectionWrites (r : Recipe) (si : Nat) (sec : Section) :
    Option (List String) := do
  let divider :=
    if r.sections.length > 1 then
      [centerPad TERM_WIDTH
        ("─── § " ++ toString (si + 1) ++
         " ───")]
    else []
  let nameLine :=
    match sec.name with
    | some n => [paint n ++ ":"]
    | none => []
  let contents ← contentsLoop r sec sec.content
  pure (divider ++ nameLine ++ contents)

/-- The section loop of `steps` (source lines 291-330), tracking the
enumeration index. -/
def sectionsLoop (r : Recipe) : Nat → List Section → Option (List String)
  | _, [] => some []
  | si, sec :: rest => do
    let w ← sectionWrites r si sec
    let ws ← sectionsLoop r (si + 1) rest
    pure (w ++ ws)

/-- The write chunks of `steps` (source lines 289-332). -/
def stepsWrites (r : Recipe) : Option (List String) :=
  (sectionsLoop r 0 r.sections).map (fun body => "Steps:" :: body)

/-! ## Entry point and sink (source `print_human`, lines 27-42; spec §6-§7) -/

/-- The write chunks of `print_human` (source lines 27-42), in the fixed
order header, metadata, ingredients, cookware, steps; `none` models a panic
anywhere in the render. -/
def printHumanWrites (r : Recipe) (name : String) : Option (List String) := do
  let h ← headerWrites r name
  let st ← stepsWrites r
  pure (h ++ metadataWrites r ++ ingredientsWrites r ++ cookwareWrites r ++ st)

/-- The sink: each write chunk is checked against the sink's per-write
acceptance; the first rejected write aborts with that write's index as the
I/O error, with no retry. -/
def runWrites (accept : Nat → Bool) : Nat → List String → Except Nat Unit
  | _, [] => Except.ok ()
  | k, _ :: rest =>
    if accept k then runWrites accept (k + 1) rest else Except.error k

/-- `print_human` against a fallible sink: `none` models a panic; otherwise
the writes run against the sink in order. -/
def printHuman (r : Recipe) (name : String) (accept : Nat → Bool) :
    Option (Except Nat Unit) :=
  (printHumanWrites r name).map (runWrites accept 0)

/-! ## Well-formedness (the upstream invariants of spec §3 and §9: indices in
range, step cross-references resolvable, timers with at least one of quantity
and name) -/

/-- Well-formedness of one item within a section: its index is in range and,
for an ingredient whose relation targets a step, the target resolves to a
step of the current section; timers carry a quantity or a name. -/
def itemWF (r : Recipe) (sec : Section) : Item → Bool
  | Item.text _ => true
  | Item.ingredient idx =>
    match r.ingredients[idx]? with
    | none => false
    | some igr =>
      match igr.referencesTo with
      | some (t, RefTarget.step) =>
        match sec.content[t]? with
        | some (Content.step _) => true
        | _ => false
      | _ => true
  | Item.cookware idx => (r.cookware[idx]?).isSome
  | Item.timer idx =>
    match r.timers[idx]? with
    | some t => t.quantity.isSome || t.name.isSome
    | none => false
  | Item.inlineQuantity idx => (r.inlineQuantities[idx]?).isSome

/-- Well-formedness of one step: all its items. -/
def stepWF (r : Recipe) (sec : Section) (st : Step) : Bool :=
  st.items.all (itemWF r sec)

/-- Well-formedness of one section: all its steps. -/
def sectionWF (r : Recipe) (sec : Section) : Bool :=
  sec.content.all (fun c =>
    match c with
    | Content.step st => stepWF r sec st
    | Content.text _ => true)

/-- Well-formedness of a recipe: all its sections. -/
def recipeWF (r : Recipe) : Bool :=
  r.sections.all (sectionWF r)

/-! ## Spec-side definitions (the spec's wording, for refinement claims) -/

/-- The legend-entry format as the spec words it (§4.4): display name,
optional subscript, optional `" (opt)"` marker, optional cross-reference,
optional `": quantity"` suffix, in that fixed order. -/
def specLegendEntry (sec : Section) (igr : Ingredient) (pos : Option Nat) :
    Option String := do
  let src ← interRefText igr sec
  pure (igr.displayName ++
    (match pos with
     | some p => subscriptStr (toString p)
     | none => "") ++
    (if igr.isOptional then " (opt)" else "") ++
    (match src with
     | some s => " from " ++ s
     | none => "") ++
    (match igr.quantity with
     | some q => ": " ++ quantityFmt q
     | none => ""))

/-- Collects an optional result per element, failing if any fails. -/
def mapOption {α β : Type} (f : α → Option β) : List α → Option (List β)
  | [] => some []
  | x :: xs => do
    let y ← f x
    let ys ← mapOption f xs
    pure (y :: ys)

/-- The legend line as the spec words it (§4.4): the literal `[-]` when no
entry was queued, otherwise the bracketed comma-joined entries. -/
def specLegendText (sec : Section) (line : List (Ingredient × Option Nat)) :
    Option String :=
  if line.isEmpty then some "[-]"
  else
    (mapOption (fun p => specLegendEntry sec p.1 p.2) line).map
      (fun es => "[" ++ reduceSep ", " es ++ "]")

/-- The tag hash as the spec words it (§4.6): wrapping sum over characters of
char value times position, reduced modulo 7. -/
def specTagHash (tag : String) : Nat :=
  (tag.data.enum.foldl (fun a p => (a + (p.2.toNat * p.1) % USIZE) % USIZE) 0)
    % 7

end CookHuman

namespace CookHuman

/-! ## Helper lemmas -/

/-- Every element of the mapped product list is below the `usize` modulus. -/
lemma tagHash_elem_lt (tag : String) :
    ∀ x ∈ tag.data.enum.map (fun p => (p.2.toNat * p.1) % USIZE), x < USIZE := by
  intro x hx
  rcases List.mem_map.mp hx with ⟨p, _, rfl⟩
  exact Nat.mod_lt _ (by norm_num [USIZE])

/-- The code's `reduce(wrapping_add)` agrees with the spec's wrapping sum. -/
lemma tagHash_eq_specTagHash (tag : String) : tagHash tag = specTagHash tag := by
  unfold tagHash specTagHash
  rw [show (fun (a : Nat) (p : Nat × Char) => (a + (p.2.toNat * p.1) % USIZE) % USIZE)
        = (fun a p => (fun x y => (x + y) % USIZE) a ((fun q : Nat × Char => (q.2.toNat * q.1) % USIZE) p)) from rfl,
      ← List.foldl_map (fun q : Nat × Char => (q.2.toNat * q.1) % USIZE) (fun x y => (x + y) % USIZE)]
  cases h : tag.data.enum.map (fun p => (p.2.toNat * p.1) % USIZE) with
  | nil => simp [reduceWrappingAdd]
  | cons x xs =>
    have hx : x < USIZE := tagHash_elem_lt tag x (h ▸ List.mem_cons_self x xs)
    simp only [reduceWrappingAdd, Option.map_some', Option.getD_some, List.foldl_cons]
    rw [Nat.zero_add, Nat.mod_eq_of_lt hx]

/-- The tag hash is always a palette index. -/
lemma tagHash_lt (tag : String) : tagHash tag < 7 := by
  unfold tagHash
  cases h : reduceWrappingAdd (tag.data.enum.map (fun p => (p.2.toNat * p.1) % USIZE)) with
  | none => simp
  | some y => simpa using Nat.mod_lt y (by norm_num)

/-- C6: Tag coloring is a pure deterministic function of the tag string: the
color is selected from the fixed 7-class palette by the wrapping sum over the
tag's characters of char value times position, reduced modulo 7, so the same
tag string always maps to the same class. -/
theorem C6_tag_color_deterministic_hash (tag : String) :
    (tagColor tag).isSome = true ∧ tagColor tag = palette[specTagHash tag]? := by
  constructor
  · unfold tagColor
    simp [List.getElem?_eq_getElem (show tagHash tag < palette.length from tagHash_lt tag)]
  · unfold tagColor
    rw [tagHash_eq_specTagHash]

/-- C10: resolving a step cross-reference indexes the section's content and
unwraps a step: total exactly under the in-range-and-is-a-step precondition,
returning "step {display number}". -/
theorem C10_inter_ref_step_resolution (igr : Ingredient) (sec : Section) (t : Nat)
    (h : igr.referencesTo = some (t, RefTarget.step)) :
    (∀ st, sec.content[t]? = some (Content.step st) →
       interRefText igr sec = some (some ("step " ++ toString st.number))) ∧
    (sec.content[t]? = none → interRefText igr sec = none) ∧
    (∀ txt, sec.content[t]? = some (Content.text txt) → interRefText igr sec = none) := by
  refine ⟨fun st hst => ?_, fun hnone => ?_, fun txt htxt => ?_⟩
  · simp [interRefText, h, Content.unwrapStep, hst]
  · simp [interRefText, h, hnone]
  · simp [interRefText, h, Content.unwrapStep, htxt]

/-- Witness for C10 at a concrete section and reference. -/
theorem C10_witness :
    interRefText (⟨"x", "x", none, none, false, true, some (0, RefTarget.step)⟩ : Ingredient)
      (⟨none, [Content.step ⟨3, []⟩]⟩ : Section) = some (some ("step " ++ toString 3)) :=
  (C10_inter_ref_step_resolution _ _ 0 rfl).1 ⟨3, []⟩ rfl

/-- C4: a timer with quantity and name renders "quantity (name)"; with only a
quantity, the quantity; with only a name, the name; under the precondition
that one of the two is present the unreachable branch is never taken, and the
step walk appends exactly this text. -/
theorem C4_timer_render (t : Timer)
    (h : t.quantity.isSome = true ∨ t.name.isSome = true) :
    (timerText t).isSome = true ∧
    (∀ q n, t.quantity = some q → t.name = some n →
       timerText t = some (quantityFmt q ++ " (" ++ n ++ ")")) ∧
    (∀ q, t.quantity = some q → t.name = none →
       timerText t = some (quantityFmt q)) ∧
    (∀ n, t.quantity = none → t.name = some n → timerText t = some n) ∧
    (∀ (r : Recipe) (dedup : List (String × List Nat)) (acc : StepAcc) (idx : Nat),
       r.timers[idx]? = some t →
       stepTextCore r dedup [Item.timer idx] acc =
         (timerText t).map (fun s => ⟨acc.text ++ s, acc.line⟩)) := by
  refine ⟨?_, ?_, ?_, ?_, ?_⟩
  · rcases hq : t.quantity with _ | q <;> rcases hn : t.name with _ | n
    · simp [hq, hn] at h
    all_goals simp [timerText, hq, hn]
  · intro q n hq hn; simp [timerText, hq, hn, paint]
  · intro q hq hn; simp [timerText, hq, hn, paint]
  · intro n hq hn; simp [timerText, hq, hn, paint]
  · intro r dedup acc idx hidx
    rcases hq : t.quantity with _ | q <;> rcases hn : t.name with _ | n
    · simp [hq, hn] at h
    all_goals simp [stepTextCore, hidx, timerText, hq, hn]

/-- Witness for C4 at a concrete quantity-only timer. -/
theorem C4_witness :
    timerText ⟨some ⟨"10", some "min"⟩, none⟩ = some (quantityFmt ⟨"10", some "min"⟩) :=
  (C4_timer_render ⟨some ⟨"10", some "min"⟩, none⟩ (Or.inl rfl)).2.2.1 _ rfl rfl

/-- C9: an empty ingredient array suppresses the "Ingredients:" heading and
table entirely; likewise for cookware; nonempty arrays start with their
heading. -/
theorem C9_empty_arrays_omit_tables (r : Recipe) :
    (r.ingredients = [] → ingredientsWrites r = []) ∧
    (r.cookware = [] → cookwareWrites r = []) ∧
    (r.ingredients ≠ [] → (ingredientsWrites r)[0]? = some "Ingredients:") ∧
    (r.cookware ≠ [] → (cookwareWrites r)[0]? = some "Cookware:") := by
  refine ⟨fun h => ?_, fun h => ?_, fun h => ?_, fun h => ?_⟩
  · simp [ingredientsWrites, h]
  · simp [cookwareWrites, h]
  · simp only [ingredientsWrites, List.isEmpty_iff]
    rw [if_neg h]
    cases hleg : ingredientsScaleLegend r <;> simp
  · simp only [cookwareWrites, List.isEmpty_iff]
    rw [if_neg h]
    simp

end CookHuman

namespace CookHuman

/-- The number of positions of a character list at which `pat` occurs as a
prefix (used to state "a phrase appears exactly once"). -/
def countOccur (pat : List Char) : List Char → Nat
  | [] => 0
  | c :: rest =>
    (if pat.isPrefixOf (c :: rest) then 1 else 0) + countOccur pat rest

/-- A recipe that is empty everywhere (helper input for closed witnesses). -/
def emptyRecipe : Recipe :=
  ⟨⟨none, none, none, none, none, none, none, [], true⟩,
   [], [], [], [], [], [], none, false⟩

/-- A one-ingredient, one-cookware recipe (helper input for closed
witnesses). -/
def smallRecipe : Recipe :=
  ⟨⟨none, none, none, none, none, none, none, [], true⟩,
   [], [⟨"salt", "salt", none, none, false, true, none⟩],
   [⟨"pan", "pan", false, true, [], none⟩], [], [], [], none, false⟩

/-- Witness for C9: the empty recipe emits neither table, the small recipe
emits both headings. -/
theorem C9_witness :
    ingredientsWrites emptyRecipe = [] ∧ cookwareWrites emptyRecipe = [] ∧
    (ingredientsWrites smallRecipe)[0]? = some "Ingredients:" ∧
    (cookwareWrites smallRecipe)[0]? = some "Cookware:" :=
  ⟨(C9_empty_arrays_omit_tables emptyRecipe).1 rfl,
   (C9_empty_arrays_omit_tables emptyRecipe).2.1 rfl,
   (C9_empty_arrays_omit_tables smallRecipe).2.2.1 (by decide),
   (C9_empty_arrays_omit_tables smallRecipe).2.2.2 (by decide)⟩

/-! ## The ingredient-table loop characterization (for C5) -/

/-- The row loop equals a filter-map over the entries, with flags as `any`
over the listed entries. -/
lemma ingredientsLoop_eq :
    ∀ (entries : List GroupedIngredient) (acc : IgrTable),
      ingredientsLoop entries acc =
        ⟨acc.rows ++
           (entries.filter (fun e => e.ingredient.shouldBeListed)).map igrRow,
         acc.thereIsFixed ||
           (entries.filter (fun e => e.ingredient.shouldBeListed)).any
             entryFixed,
         acc.thereIsErr ||
           (entries.filter (fun e => e.ingredient.shouldBeListed)).any
             entryErr⟩ := by
  intro entries
  induction entries with
  | nil => intro acc; simp [ingredientsLoop]
  | cons e rest ih =>
    intro acc
    by_cases hl : e.ingredient.shouldBeListed = true
    · simp only [ingredientsLoop, hl, if_true]
      rw [ih]
      simp [hl, Bool.or_assoc]
    · simp only [Bool.not_eq_true] at hl
      simp only [ingredientsLoop, hl, Bool.false_eq_true, if_false]
      rw [ih]
      simp [hl]

/-- The rows of the completed table. -/
lemma ingredientRows_rows (r : Recipe) :
    (ingredientRows r).rows = (listedEntries r).map igrRow := by
  rw [ingredientRows, ingredientsLoop_eq]
  simp [listedEntries]

/-- The fixed flag of the completed table. -/
lemma ingredientRows_fixed (r : Recipe) :
    (ingredientRows r).thereIsFixed = (listedEntries r).any entryFixed := by
  rw [ingredientRows, ingredientsLoop_eq]
  simp [listedEntries]

/-- The error flag of the completed table. -/
lemma ingredientRows_err (r : Recipe) :
    (ingredientRows r).thereIsErr = (listedEntries r).any entryErr := by
  rw [ingredientRows, ingredientsLoop_eq]
  simp [listedEntries]

/-- C5: every listed Fixed row carries the fixed-value glyph; the legend line
after the table exists iff some row used the fixed or the error glyph; it
holds only the explanations of the glyphs that occurred, fixed first, with
" | " when both are present, and "fixed value" appears exactly once. -/
theorem C5_ingredient_table_glyph_legend (r : Recipe) :
    (∀ e ∈ listedEntries r, entryFixed e = true →
       igrRow e ∈ (ingredientRows r).rows ∧
       (igrRow e)[2]? = some (igrContent e ++ trinagle)) ∧
    ((ingredientsScaleLegend r).isSome = true ↔
       ((listedEntries r).any entryFixed || (listedEntries r).any entryErr)
         = true) ∧
    (∀ line, ingredientsScaleLegend r = some line →
       ((listedEntries r).any entryFixed = true →
          ((listedEntries r).any entryErr = true →
             line = "⚠ fixed value | ⯃ error scaling") ∧
          ((listedEntries r).any entryErr = false →
             line = "⚠ fixed value") ∧
          countOccur "fixed value".data line.data = 1) ∧
       ((listedEntries r).any entryFixed = false →
          (listedEntries r).any entryErr = true →
          line = "⯃ error scaling")) := by
  refine ⟨?_, ?_, ?_⟩
  · intro e he hf
    have hout : e.outcome = some ScaleOutcome.fixed := by
      simpa [entryFixed] using hf
    constructor
    · rw [ingredientRows_rows]
      exact List.mem_map_of_mem igrRow he
    · simp [igrRow, hout, outcomeChar, paint]
  · rw [ingredientsScaleLegend, ingredientRows_fixed, ingredientRows_err]
    rcases hf : (listedEntries r).any entryFixed <;>
      rcases he : (listedEntries r).any entryErr <;> simp
  · intro line hline
    rw [ingredientsScaleLegend, ingredientRows_fixed, ingredientRows_err]
      at hline
    rcases hf : (listedEntries r).any entryFixed with _ | _ <;>
      rcases he : (listedEntries r).any entryErr with _ | _ <;>
      rw [hf, he] at hline
    · simp at hline
    · simp only [Bool.false_or] at hline
      rw [if_true] at hline
      obtain rfl : line = scaleLegendLine false true :=
        (Option.some.inj hline).symm
      exact ⟨fun h => Bool.noConfusion h, fun _ _ => by decide⟩
    · simp only [Bool.or_false] at hline
      rw [if_true] at hline
      obtain rfl : line = scaleLegendLine true false :=
        (Option.some.inj hline).symm
      exact ⟨fun _ => ⟨fun h => Bool.noConfusion h, fun _ => by decide,
               by decide⟩,
             fun h => Bool.noConfusion h⟩
    · simp only [Bool.or_self] at hline
      rw [if_true] at hline
      obtain rfl : line = scaleLegendLine true true :=
        (Option.some.inj hline).symm
      exact ⟨fun _ => ⟨fun _ => by decide, fun h => Bool.noConfusion h,
               by decide⟩,
             fun h => Bool.noConfusion h⟩

/-- A grouped Fixed flour entry (witness input). -/
def c5eFixed : GroupedIngredient :=
  ⟨⟨"flour", "flour", some ⟨"100", some "g"⟩, none, false, true, none⟩,
   [⟨"100", some "g"⟩], some ScaleOutcome.fixed⟩

/-- A grouped Error sugar entry (witness input). -/
def c5eErr : GroupedIngredient :=
  ⟨⟨"sugar", "sugar", some ⟨"2", some "tbsp"⟩, none, false, true, none⟩,
   [⟨"2", some "tbsp"⟩], some (ScaleOutcome.error "no unit")⟩

/-- A recipe whose aggregation has one Fixed and one Error entry (witness
input). -/
def c5Recipe : Recipe :=
  ⟨⟨none, none, none, none, none, none, none, [], true⟩,
   [], [c5eFixed.ingredient, c5eErr.ingredient], [], [], [],
   [c5eFixed, c5eErr], none, false⟩

/-- Witness for C5 at the concrete two-entry recipe. -/
theorem C5_witness :
    (igrRow c5eFixed ∈ (ingredientRows c5Recipe).rows ∧
     (igrRow c5eFixed)[2]? = some (igrContent c5eFixed ++ trinagle)) ∧
    ingredientsScaleLegend c5Recipe = some (scaleLegendLine true true) ∧
    scaleLegendLine true true = "⚠ fixed value | ⯃ error scaling" ∧
    countOccur "fixed value".data (scaleLegendLine true true).data = 1 := by
  have h1 := (C5_ingredient_table_glyph_legend c5Recipe).1 c5eFixed
    (by decide) (by decide)
  have h3 := (C5_ingredient_table_glyph_legend c5Recipe).2.2
    (scaleLegendLine true true) (by decide)
  exact ⟨h1, by decide, (h3.1 (by decide)).1 (by decide), (h3.1 (by decide)).2.2⟩

end CookHuman

namespace CookHuman

/-- The spec example's first salt occurrence: no quantity (C1 input). -/
def c1Igr0 : Ingredient :=
  ⟨"salt", "salt", none, none, false, true, none⟩

/-- The spec example's second salt occurrence: quantity "1 tsp" (C1 input). -/
def c1Igr1 : Ingredient :=
  ⟨"salt", "salt", some ⟨"1", some "tsp"⟩, none, false, true, none⟩

/-- The spec example's step (C1 input). -/
def c1Step : Step :=
  ⟨1, [Item.text "Add ", Item.ingredient 0, Item.text " and ",
       Item.ingredient 1]⟩

/-- The spec example's section (C1 input). -/
def c1Section : Section := ⟨none, [Content.step c1Step]⟩

/-- The spec example's recipe (C1 input). -/
def c1Recipe : Recipe :=
  ⟨⟨none, none, none, none, none, none, none, [], true⟩,
   [c1Section], [c1Igr0, c1Igr1], [], [], [], [], none, false⟩

/-- C1 counterexample: at the spec's own example (two "salt" occurrences, only
the second with a quantity) the post-filter group has a single member, so the
code renders no subscripts at all: narrative "Add salt and salt" and legend
"[salt: 1 tsp]", not the claimed "Add salt₁ and salt₂" / "[salt₂: 1 tsp]". -/
theorem C1_counterexample :
    stepText c1Recipe c1Section c1Step =
      some ("Add salt and salt", "[salt: 1 tsp]") ∧
    stepText c1Recipe c1Section c1Step ≠
      some ("Add salt₁ and salt₂", "[salt₂: 1 tsp]") := by
  constructor
  · decide
  · decide

/-- C1 amended: the subscript decision and numbering use the post-filter
group, not the original group: when the post-filter group of the occurrence's
name has more than one member, an occurrence that is itself a member renders
with subscript 1 + its position within the post-filter group, and an
occurrence filtered out of the group renders with no subscript; with at most
one member no subscript is applied, so the spec's example renders narrative
"Add salt and salt" and legend "[salt: 1 tsp]". -/
theorem C1_amended_postfilter_subscripts (buffer : String)
    (dedup : List (String × List Nat)) (index : Nat) (name : String)
    (entries : List Nat) (h : alookup dedup name = some entries) :
    (entries.length ≤ 1 →
       writeIgrCount buffer dedup index name = some (buffer, none)) ∧
    (1 < entries.length →
       ∀ p, entries.findIdx? (· = index) = some p →
         writeIgrCount buffer dedup index name =
           some (buffer ++ subscriptStr (toString (p + 1)), some (p + 1))) ∧
    (1 < entries.length → entries.findIdx? (· = index) = none →
       writeIgrCount buffer dedup index name = some (buffer, none)) ∧
    stepText c1Recipe c1Section c1Step =
      some ("Add salt and salt", "[salt: 1 tsp]") := by
  refine ⟨fun hle => ?_, fun hgt p hp => ?_, fun hgt hnone => ?_, by decide⟩
  · simp [writeIgrCount, h, hle]
  · simp [writeIgrCount, h, Nat.not_le.mpr hgt, hp, writeSubscript]
  · simp [writeIgrCount, h, Nat.not_le.mpr hgt, hnone]

/-- Witness for C1's amended subscript rule: in a two-member post-filter
group, the member at position 1 renders with subscript 2. -/
theorem C1_amended_witness :
    writeIgrCount "Add salt" [("salt", [0, 1])] 1 "salt" =
      some ("Add salt" ++ subscriptStr (toString (1 + 1)), some (1 + 1)) :=
  (C1_amended_postfilter_subscripts "Add salt" [("salt", [0, 1])] 1 "salt"
      [0, 1] rfl).2.1 (by decide) 1 (by decide)

end CookHuman

namespace CookHuman

/-- One legend entry appended to a buffer is the buffer plus the spec-format
entry. -/
lemma legendEntryAppend_eq (sec : Section) (buffer : String) (igr : Ingredient)
    (pos : Option Nat) :
    legendEntryAppend sec buffer igr pos =
      (specLegendEntry sec igr pos).map (fun e => buffer ++ e) := by
  cases hsrc : interRefText igr sec with
  | none => simp [legendEntryAppend, specLegendEntry, hsrc]
  | some src =>
    cases src <;> rcases pos with _ | p <;>
      rcases hq : igr.quantity with _ | q <;>
      rcases hopt : igr.isOptional with _ | _ <;>
      simp [legendEntryAppend, specLegendEntry, hsrc, hq, hopt, writeSubscript,
        paint, String.append_assoc, String.append_empty]

/-- Prepending onto the seed of a separator fold factors out. -/
lemma foldl_sep_append (sep c : String) :
    ∀ (l : List String) (x : String),
      l.foldl (fun a b => a ++ sep ++ b) (c ++ x) =
        c ++ l.foldl (fun a b => a ++ sep ++ b) x := by
  intro l
  induction l with
  | nil => intro x; rfl
  | cons y ys ih =>
    intro x
    simp only [List.foldl_cons]
    have : c ++ x ++ sep ++ y = c ++ (x ++ sep ++ y) := by
      simp [String.append_assoc]
    rw [this, ih]

/-- The separator join of a two-or-more-element list peels its head. -/
lemma reduceSep_cons_cons (sep a b : String) (l : List String) :
    reduceSep sep (a :: b :: l) = a ++ sep ++ reduceSep sep (b :: l) := by
  show (b :: l).foldl (fun x y => x ++ sep ++ y) a = _
  simp only [List.foldl_cons, reduceSep]
  exact foldl_sep_append sep (a ++ sep) l b

/-- The legend loop over a nonempty queue equals the spec's comma join of the
spec-format entries, appended to the starting buffer. -/
lemma legendLoop_eq (sec : Section) :
    ∀ (rest : List (Ingredient × Option Nat)) (igr : Ingredient)
      (pos : Option Nat) (buffer : String),
      legendLoop sec buffer ((igr, pos) :: rest) =
        (mapOption (fun p => specLegendEntry sec p.1 p.2)
            ((igr, pos) :: rest)).map
          (fun es => buffer ++ reduceSep ", " es) := by
  intro rest
  induction rest with
  | nil =>
    intro igr pos buffer
    cases hx : specLegendEntry sec igr pos with
    | none => simp [legendLoop, legendEntryAppend_eq, hx, mapOption]
    | some e => simp [legendLoop, legendEntryAppend_eq, hx, mapOption, reduceSep]
  | cons y ys ih =>
    intro igr pos buffer
    obtain ⟨yi, yp⟩ := y
    cases hx : specLegendEntry sec igr pos with
    | none => simp [legendLoop, legendEntryAppend_eq, hx, mapOption]
    | some e =>
      have lhs :
          legendLoop sec buffer ((igr, pos) :: (yi, yp) :: ys) =
            legendLoop sec (buffer ++ e ++ ", ") ((yi, yp) :: ys) := by
        simp [legendLoop, legendEntryAppend_eq, hx]
      rw [lhs, ih]
      cases hy : specLegendEntry sec yi yp with
      | none => simp [hx, hy, mapOption]
      | some e' =>
        cases hys : mapOption (fun p => specLegendEntry sec p.1 p.2) ys with
        | none => simp [hx, hy, hys, mapOption]
        | some es' =>
          simp [hx, hy, hys, mapOption, reduceSep_cons_cons,
            String.append_assoc]

/-- C3: the per-step legend line is exactly the spec's format: the literal
placeholder "[-]" when no occurrence was queued, otherwise bracketed
comma-joined entries, each being display name, optional subscript, optional
" (opt)" marker, optional cross-reference, optional ": quantity" suffix, in
that fixed order. -/
theorem C3_legend_line_format (sec : Section)
    (line : List (Ingredient × Option Nat)) :
    legendText sec line = specLegendText sec line := by
  cases line with
  | nil => rfl
  | cons x xs =>
    obtain ⟨igr, pos⟩ := x
    simp only [legendText, specLegendText, List.isEmpty_cons,
      Bool.false_eq_true, if_false]
    rw [legendLoop_eq]
    cases hm : mapOption (fun p => specLegendEntry sec p.1 p.2)
      ((igr, pos) :: xs) with
    | none => simp [hm]
    | some es => simp [hm, String.append_assoc]

end CookHuman

namespace CookHuman

/-- A successfully filtered group is never empty: the filter falls back to
the group's first member. -/
lemma filterGroup_ne_nil (r : Recipe) (g g' : List Nat)
    (h : filterGroup r g = some g') : g' ≠ [] := by
  unfold filterGroup at h
  cases hh : g.head? with
  | none => rw [hh] at h; simp at h
  | some first =>
    rw [hh] at h
    cases hr : retainLoop r g with
    | none => rw [hr] at h; simp at h
    | some gr =>
      rw [hr] at h
      simp only [Option.bind_eq_bind, Option.some_bind, Option.pure_def,
        Option.some.injEq] at h
      subst h
      cases gr with
      | nil => simp
      | cons a l => simp

/-- Every entry of the filtered map comes from filtering an entry of the
grouped map with the same key. -/
lemma filterGroupsLoop_mem (r : Recipe) :
    ∀ (l l' : List (String × List Nat)), filterGroupsLoop r l = some l' →
      ∀ p ∈ l', ∃ v, (p.1, v) ∈ l ∧ filterGroup r v = some p.2 := by
  intro l
  induction l with
  | nil =>
    intro l' h p hp
    simp [filterGroupsLoop] at h
    subst h
    simp at hp
  | cons kv rest ih =>
    intro l' h p hp
    obtain ⟨k, v⟩ := kv
    simp only [filterGroupsLoop] at h
    cases hf : filterGroup r v with
    | none => rw [hf] at h; simp at h
    | some v' =>
      rw [hf] at h
      cases hrest : filterGroupsLoop r rest with
      | none => rw [hrest] at h; simp at h
      | some rest' =>
        rw [hrest] at h
        simp only [Option.bind_eq_bind, Option.some_bind, Option.pure_def,
        Option.some.injEq] at h
        subst h
        rcases List.mem_cons.mp hp with rfl | hmem
        · exact ⟨v, List.mem_cons_self _ _, hf⟩
        · obtain ⟨w, hw, hfw⟩ := ih rest' hrest p hmem
          exact ⟨w, List.mem_cons_of_mem _ hw, hfw⟩

/-- Provenance of the legend queue: every entry the item walk adds comes from
an ingredient item of the walked list whose index is a member of the
post-filter group of its name. -/
lemma stepTextCore_line_mem (r : Recipe) (dedup : List (String × List Nat)) :
    ∀ (items : List Item) (acc acc' : StepAcc),
      stepTextCore r dedup items acc = some acc' →
      ∀ e ∈ acc'.line, e ∈ acc.line ∨
        ∃ idx g, Item.ingredient idx ∈ items ∧
          r.ingredients[idx]? = some e.1 ∧
          alookup dedup e.1.name = some g ∧ idx ∈ g := by
  intro items
  induction items with
  | nil =>
    intro acc acc' h e he
    simp only [stepTextCore, Option.some.injEq] at h
    subst h
    exact Or.inl he
  | cons it rest ih =>
    intro acc acc' h e he
    have step :
        ∀ acc₀ : StepAcc, stepTextCore r dedup rest acc₀ = some acc' →
          e ∈ acc₀.line ∨
          ∃ idx g, Item.ingredient idx ∈ it :: rest ∧
            r.ingredients[idx]? = some e.1 ∧
            alookup dedup e.1.name = some g ∧ idx ∈ g := by
      intro acc₀ h₀
      rcases ih acc₀ acc' h₀ e he with hin | ⟨idx, g, hmem, hrest⟩
      · exact Or.inl hin
      · exact Or.inr ⟨idx, g, List.mem_cons_of_mem _ hmem, hrest⟩
    cases it with
    | text v =>
      simp only [stepTextCore] at h
      rcases step _ h with hin | hex
      · exact Or.inl hin
      · exact Or.inr hex
    | ingredient idx =>
      simp only [stepTextCore] at h
      cases hig : r.ingredients[idx]? with
      | none => rw [hig] at h; simp at h
      | some igr =>
        rw [hig] at h
        simp only [Option.bind_eq_bind, Option.some_bind] at h
        cases hw : writeIgrCount (acc.text ++ paint igr.displayName) dedup idx
            igr.name with
        | none => rw [hw] at h; simp at h
        | some tp =>
          obtain ⟨text', pos⟩ := tp
          rw [hw] at h
          simp only [Option.bind_eq_bind, Option.some_bind] at h
          cases hg : alookup dedup igr.name with
          | none => rw [hg] at h; simp at h
          | some g =>
            rw [hg] at h
            simp only [Option.bind_eq_bind, Option.some_bind] at h
            rcases step _ h with hin | hex
            · by_cases hc : g.contains idx
              · rw [if_pos hc] at hin
                rcases List.mem_append.mp hin with hl | hr
                · exact Or.inl hl
                · have : e = (igr, pos) := by simpa using hr
                  subst this
                  exact Or.inr ⟨idx, g, List.mem_cons_self _ _, hig, hg,
                    (by simpa using hc)⟩
              · rw [if_neg hc] at hin
                exact Or.inl hin
            · exact Or.inr hex
    | cookware idx =>
      simp only [stepTextCore] at h
      cases hcw : r.cookware[idx]? with
      | none => rw [hcw] at h; simp at h
      | some cw =>
        rw [hcw] at h
        simp only [Option.bind_eq_bind, Option.some_bind] at h
        rcases step _ h with hin | hex
        · exact Or.inl hin
        · exact Or.inr hex
    | timer idx =>
      simp only [stepTextCore] at h
      cases ht : r.timers[idx]? with
      | none => rw [ht] at h; simp at h
      | some t =>
        rw [ht] at h
        simp only [Option.bind_eq_bind, Option.some_bind] at h
        cases hs : timerText t with
        | none => rw [hs] at h; simp at h
        | some s =>
          rw [hs] at h
          simp only [Option.bind_eq_bind, Option.some_bind] at h
          rcases step _ h with hin | hex
          · exact Or.inl hin
          · exact Or.inr hex
    | inlineQuantity idx =>
      simp only [stepTextCore] at h
      cases hq : r.inlineQuantities[idx]? with
      | none => rw [hq] at h; simp at h
      | some q =>
        rw [hq] at h
        simp only [Option.bind_eq_bind, Option.some_bind] at h
        rcases step _ h with hin | hex
        · exact Or.inl hin
        · exact Or.inr hex

/-- C2: after grouping and filtering, every group of the dedup map is
nonempty, and every occurrence queued for the step's legend is a member of
the post-filter group of its ingredient's name. -/
theorem C2_postfilter_groups_nonempty_legend_membership (r : Recipe)
    (step : Step) (dedup : List (String × List Nat)) (acc : StepAcc)
    (h1 : buildStepIgrsDedup step r = some dedup)
    (h2 : stepTextCore r dedup step.items ⟨"", []⟩ = some acc) :
    (∀ p ∈ dedup, p.2 ≠ []) ∧
    (∀ e ∈ acc.line, ∃ idx g, Item.ingredient idx ∈ step.items ∧
        r.ingredients[idx]? = some e.1 ∧
        alookup dedup e.1.name = some g ∧ idx ∈ g) := by
  constructor
  · intro p hp
    unfold buildStepIgrsDedup at h1
    cases hb : buildGroups r step.items [] with
    | none => rw [hb] at h1; simp at h1
    | some gs =>
      rw [hb] at h1
      simp only [Option.bind_eq_bind, Option.some_bind] at h1
      obtain ⟨v, _, hf⟩ := filterGroupsLoop_mem r gs dedup h1 p hp
      exact filterGroup_ne_nil r v p.2 hf
  · intro e he
    rcases stepTextCore_line_mem r dedup step.items _ _ h2 e he with hin | hex
    · simp at hin
    · exact hex

/-- The C2 witness ingredients: two salt occurrences, only the second with a
quantity. -/
def c2Igr0 : Ingredient := ⟨"salt", "salt", none, none, false, true, none⟩

/-- Second C2 witness ingredient. -/
def c2Igr1 : Ingredient :=
  ⟨"salt", "salt", some ⟨"1", some "tsp"⟩, none, false, true, none⟩

/-- The C2 witness step. -/
def c2Step : Step :=
  ⟨1, [Item.text "Add ", Item.ingredient 0, Item.text " and ",
       Item.ingredient 1]⟩

/-- The C2 witness recipe. -/
def c2Recipe : Recipe :=
  ⟨⟨none, none, none, none, none, none, none, [], true⟩,
   [⟨none, [Content.step c2Step]⟩], [c2Igr0, c2Igr1], [], [], [], [], none,
   false⟩

/-- Witness for C2 at the concrete two-occurrence step. -/
theorem C2_witness :
    (∀ p ∈ [("salt", [1])], p.2 ≠ ([] : List Nat)) ∧
    (∀ e ∈ [(c2Igr1, (none : Option Nat))],
       ∃ idx g, Item.ingredient idx ∈ c2Step.items ∧
         c2Recipe.ingredients[idx]? = some e.1 ∧
         alookup [("salt", [1])] e.1.name = some g ∧ idx ∈ g) :=
  C2_postfilter_groups_nonempty_legend_membership c2Recipe c2Step
    [("salt", [1])] ⟨"Add salt and salt", [(c2Igr1, none)]⟩
    (by decide) (by decide)

end CookHuman

namespace CookHuman

/-- The keys after an insert are the old keys plus possibly the new key. -/
lemma alInsert_keys_mem :
    ∀ (m : List (String × List Nat)) (k : String) (v : Nat) (x : String),
      x ∈ (alInsert m k v).map Prod.fst ↔ x ∈ m.map Prod.fst ∨ x = k := by
  intro m k v x
  induction m with
  | nil => simp [alInsert]
  | cons kv rest ih =>
    obtain ⟨k', vs⟩ := kv
    by_cases hk : k' = k
    · subst hk
      simp [alInsert, or_assoc, or_comm]
    · simp only [alInsert, if_neg hk, List.map_cons, List.mem_cons, ih]
      tauto

/-- Inserting preserves distinctness of keys. -/
lemma alInsert_keys_nodup :
    ∀ (m : List (String × List Nat)) (k : String) (v : Nat),
      (m.map Prod.fst).Nodup → ((alInsert m k v).map Prod.fst).Nodup := by
  intro m k v
  induction m with
  | nil => intro _; simp [alInsert]
  | cons kv rest ih =>
    obtain ⟨k', vs⟩ := kv
    intro hn
    simp only [List.map_cons, List.nodup_cons] at hn
    by_cases hk : k' = k
    · subst hk
      simpa [alInsert] using hn
    · simp only [alInsert, if_neg hk, List.map_cons, List.nodup_cons]
      refine ⟨fun hmem => ?_, ih hn.2⟩
      rcases (alInsert_keys_mem rest k v k').mp hmem with hold | rfl
      · exact hn.1 hold
      · exact hk rfl

/-- The grouping pass preserves distinctness of keys. -/
lemma buildGroups_keys_nodup (r : Recipe) :
    ∀ (items : List Item) (m gs : List (String × List Nat)),
      buildGroups r items m = some gs → (m.map Prod.fst).Nodup →
      (gs.map Prod.fst).Nodup := by
  intro items
  induction items with
  | nil =>
    intro m gs h hn
    simp only [buildGroups, Option.some.injEq] at h
    subst h
    exact hn
  | cons it rest ih =>
    intro m gs h hn
    cases it with
    | ingredient idx =>
      simp only [buildGroups] at h
      cases hig : r.ingredients[idx]? with
      | none => rw [hig] at h; simp at h
      | some igr =>
        rw [hig] at h
        simp only [Option.bind_eq_bind, Option.some_bind] at h
        exact ih _ _ h (alInsert_keys_nodup m igr.name idx hn)
    | text v => exact ih _ _ h hn
    | cookware i => exact ih _ _ h hn
    | timer i => exact ih _ _ h hn
    | inlineQuantity i => exact ih _ _ h hn

/-- The filter pass keeps the key list unchanged. -/
lemma filterGroupsLoop_keys (r : Recipe) :
    ∀ (l l' : List (String × List Nat)), filterGroupsLoop r l = some l' →
      l'.map Prod.fst = l.map Prod.fst := by
  intro l
  induction l with
  | nil =>
    intro l' h
    simp only [filterGroupsLoop, Option.some.injEq] at h
    subst h
    rfl
  | cons kv rest ih =>
    intro l' h
    obtain ⟨k, v⟩ := kv
    simp only [filterGroupsLoop] at h
    cases hf : filterGroup r v with
    | none => rw [hf] at h; simp at h
    | some v' =>
      rw [hf] at h
      cases hrest : filterGroupsLoop r rest with
      | none => rw [hrest] at h; simp at h
      | some rest' =>
        rw [hrest] at h
        simp only [Option.bind_eq_bind, Option.some_bind, Option.pure_def,
          Option.some.injEq] at h
        subst h
        simp [ih rest' hrest]

/-- The dedup map built for a step always has distinct keys. -/
lemma dedup_keys_nodup (r : Recipe) (step : Step)
    (dedup : List (String × List Nat))
    (h : buildStepIgrsDedup step r = some dedup) :
    (dedup.map Prod.fst).Nodup := by
  unfold buildStepIgrsDedup at h
  cases hb : buildGroups r step.items [] with
  | none => rw [hb] at h; simp at h
  | some gs =>
    rw [hb] at h
    simp only [Option.bind_eq_bind, Option.some_bind] at h
    rw [filterGroupsLoop_keys r gs dedup h]
    exact buildGroups_keys_nodup r step.items [] gs hb (by simp)

/-- Association-list lookup is invariant under permutation when keys are
distinct. -/
lemma alookup_perm :
    ∀ (l₁ l₂ : List (String × List Nat)), l₁.Perm l₂ →
      (l₂.map Prod.fst).Nodup → ∀ k, alookup l₁ k = alookup l₂ k := by
  intro l₁ l₂ hp
  induction hp with
  | nil => intro _ k; rfl
  | cons x p ih =>
    intro hn k
    obtain ⟨k', v⟩ := x
    simp only [List.map_cons, List.nodup_cons] at hn
    simp only [alookup]
    by_cases hk : k' = k
    · simp [hk]
    · simp only [if_neg hk]
      exact ih hn.2 k
  | swap x y l =>
    intro hn k
    obtain ⟨kx, vx⟩ := x
    obtain ⟨ky, vy⟩ := y
    simp only [List.map_cons, List.nodup_cons, List.mem_cons] at hn
    have hxy : kx ≠ ky := fun h => hn.1 (Or.inl h)
    simp only [alookup]
    by_cases hky : ky = k <;> by_cases hkx : kx = k
    · exact absurd (hkx.trans hky.symm) hxy
    · simp [hky, hkx]
    · simp [hky, hkx]
    · simp [hky, hkx]
  | trans p₁ p₂ ih₁ ih₂ =>
    intro hn k
    exact (ih₁ ((p₂.map Prod.fst).nodup_iff.mpr hn) k).trans (ih₂ hn k)

/-- The item walk only consults the dedup map through lookups, so maps with
equal lookups render identically. -/
lemma stepTextCore_congr (r : Recipe) (d₁ d₂ : List (String × List Nat))
    (hl : ∀ k, alookup d₁ k = alookup d₂ k) :
    ∀ (items : List Item) (acc : StepAcc),
      stepTextCore r d₁ items acc = stepTextCore r d₂ items acc := by
  intro items
  induction items with
  | nil => intro acc; rfl
  | cons it rest ih =>
    intro acc
    cases it with
    | text v =>
      simp only [stepTextCore]
      exact ih _
    | ingredient idx =>
      simp only [stepTextCore]
      cases hig : r.ingredients[idx]? with
      | none => rfl
      | some igr =>
        simp only [Option.bind_eq_bind, Option.some_bind]
        have hw : writeIgrCount (acc.text ++ paint igr.displayName) d₁ idx
            igr.name =
            writeIgrCount (acc.text ++ paint igr.displayName) d₂ idx
              igr.name := by
          unfold writeIgrCount
          rw [hl igr.name]
        rw [hw, hl igr.name]
        cases writeIgrCount (acc.text ++ paint igr.displayName) d₂ idx
            igr.name with
        | none => rfl
        | some tp =>
          obtain ⟨text', pos⟩ := tp
          simp only [Option.bind_eq_bind, Option.some_bind]
          cases alookup d₂ igr.name with
          | none => rfl
          | some g =>
            simp only [Option.bind_eq_bind, Option.some_bind]
            exact ih _
    | cookware idx =>
      simp only [stepTextCore]
      cases r.cookware[idx]? with
      | none => rfl
      | some cw =>
        simp only [Option.bind_eq_bind, Option.some_bind]
        exact ih _
    | timer idx =>
      simp only [stepTextCore]
      cases r.timers[idx]? with
      | none => rfl
      | some t =>
        simp only [Option.bind_eq_bind, Option.some_bind]
        cases timerText t with
        | none => rfl
        | some s =>
          simp only [Option.bind_eq_bind, Option.some_bind]
          exact ih _
    | inlineQuantity idx =>
      simp only [stepTextCore]
      cases r.inlineQuantities[idx]? with
      | none => rfl
      | some q =>
        simp only [Option.bind_eq_bind, Option.some_bind]
        exact ih _

/-- C7: rendering a step does not depend on the iteration order of the
grouping map: any permutation of the built dedup map renders the identical
narrative and legend, so rendering the same immutable input twice yields
identical subscripts. -/
theorem C7_render_deterministic_groups_order (r : Recipe) (sec : Section)
    (step : Step) (groups groups' : List (String × List Nat))
    (hb : buildStepIgrsDedup step r = some groups)
    (hp : groups'.Perm groups) :
    stepTextWithDedup r sec step groups' =
      stepTextWithDedup r sec step groups := by
  have hn := dedup_keys_nodup r step groups hb
  have hl := alookup_perm groups' groups hp hn
  unfold stepTextWithDedup
  rw [stepTextCore_congr r groups' groups hl]

/-- The C7 witness recipe: two distinct ingredient names in one step. -/
def c7Recipe : Recipe :=
  ⟨⟨none, none, none, none, none, none, none, [], true⟩,
   [⟨none, [Content.step ⟨1, [Item.ingredient 0, Item.ingredient 1]⟩]⟩],
   [⟨"salt", "salt", some ⟨"1", some "tsp"⟩, none, false, true, none⟩,
    ⟨"pepper", "pepper", some ⟨"2", some "g"⟩, none, false, true, none⟩],
   [], [], [], [], none, false⟩

/-- The C7 witness step. -/
def c7Step : Step := ⟨1, [Item.ingredient 0, Item.ingredient 1]⟩

/-- The C7 witness section. -/
def c7Section : Section := ⟨none, [Content.step c7Step]⟩

/-- Witness for C7: the reversed two-key dedup map renders identically. -/
theorem C7_witness :
    stepTextWithDedup c7Recipe c7Section c7Step
        [("pepper", [1]), ("salt", [0])] =
      stepTextWithDedup c7Recipe c7Section c7Step
        [("salt", [0]), ("pepper", [1])] :=
  C7_render_deterministic_groups_order c7Recipe c7Section c7Step
    [("salt", [0]), ("pepper", [1])] [("pepper", [1]), ("salt", [0])]
    (by decide) (List.Perm.swap _ _ _)

end CookHuman

namespace CookHuman

/-! ## Sink semantics (for C8) -/

/-- A sink that accepts every write runs to `ok`. -/
lemma runWrites_ok (accept : Nat → Bool) (hacc : ∀ k, accept k = true) :
    ∀ (ws : List String) (k : Nat), runWrites accept k ws = Except.ok () := by
  intro ws
  induction ws with
  | nil => intro k; rfl
  | cons w rest ih => intro k; simp [runWrites, hacc k, ih]

/-- The first rejected write aborts with exactly that write's error. -/
lemma runWrites_first_error (accept : Nat → Bool) :
    ∀ (ws : List String) (k0 k : Nat), k < ws.length →
      (∀ j, j < k → accept (k0 + j) = true) → accept (k0 + k) = false →
      runWrites accept k0 ws = Except.error (k0 + k) := by
  intro ws
  induction ws with
  | nil => intro k0 k hk; simp at hk
  | cons w rest ih =>
    intro k0 k hk hpre hfail
    cases k with
    | zero =>
      have h0 : accept k0 = false := by simpa using hfail
      simp [runWrites, h0]
    | succ j =>
      have h0 : accept k0 = true := by simpa using hpre 0 (Nat.succ_pos j)
      have hrest := ih (k0 + 1) j (by simpa using Nat.lt_of_succ_lt_succ hk)
        (fun i hi => by
          have := hpre (i + 1) (Nat.succ_lt_succ hi)
          simpa [Nat.add_comm, Nat.add_assoc, Nat.add_left_comm] using this)
        (by simpa [Nat.add_comm, Nat.add_assoc, Nat.add_left_comm] using hfail)
      simp only [runWrites, h0, if_true]
      rw [hrest]
      congr 1
      omega

/-! ## Success of the render under well-formedness (for C8) -/

/-- The tag color is always defined. -/
lemma tagColor_isSome (tag : String) : (tagColor tag).isSome = true := by
  unfold tagColor
  simp [List.getElem?_eq_getElem
    (show tagHash tag < palette.length from tagHash_lt tag)]

/-- The tag loop never fails. -/
lemma tagsLoop_isSome : ∀ (tags : List String) (acc : String),
    (tagsLoop tags acc).isSome = true := by
  intro tags
  induction tags with
  | nil => intro acc; rfl
  | cons t rest ih =>
    intro acc
    obtain ⟨c, hc⟩ := Option.isSome_iff_exists.mp (tagColor_isSome t)
    simp [tagsLoop, hc, ih]

/-- The header never fails. -/
lemma headerWrites_isSome (r : Recipe) (name : String) :
    (headerWrites r name).isSome = true := by
  unfold headerWrites
  cases htags : r.metadata.tags with
  | none => simp
  | some tags =>
    obtain ⟨s, hs⟩ := Option.isSome_iff_exists.mp (tagsLoop_isSome tags "")
    simp [hs]

/-- Validity of a grouped map: groups are nonempty and hold only in-range
ingredient indices. -/
def groupsValid (r : Recipe) (m : List (String × List Nat)) : Prop :=
  ∀ p ∈ m, p.2 ≠ [] ∧ ∀ i ∈ p.2, (r.ingredients[i]?).isSome = true

/-- Inserting a valid index preserves validity. -/
lemma alInsert_valid (r : Recipe) :
    ∀ (m : List (String × List Nat)) (k : String) (v : Nat),
      groupsValid r m → (r.ingredients[v]?).isSome = true →
      groupsValid r (alInsert m k v) := by
  intro m
  induction m with
  | nil =>
    intro k v _ hv p hp
    simp only [alInsert, List.mem_singleton] at hp
    subst hp
    refine ⟨by simp, fun i hi => ?_⟩
    simp only [List.mem_singleton] at hi
    subst hi
    exact hv
  | cons kv rest ih =>
    intro k v hm hv p hp
    obtain ⟨k', vs⟩ := kv
    by_cases hk : k' = k
    · subst hk
      simp only [alInsert, eq_self_iff_true, if_true, List.mem_cons] at hp
      rcases hp with rfl | hmem
      · refine ⟨by simp, fun i hi => ?_⟩
        rcases List.mem_append.mp hi with hvs | hnew
        · exact (hm _ (List.mem_cons_self _ _)).2 i hvs
        · simp only [List.mem_singleton] at hnew
          subst hnew
          exact hv
      · exact hm p (List.mem_cons_of_mem _ hmem)
    · simp only [alInsert, if_neg hk, List.mem_cons] at hp
      rcases hp with rfl | hmem
      · exact hm _ (List.mem_cons_self _ _)
      · exact ih k v (fun q hq => hm q (List.mem_cons_of_mem _ hq)) hv p hmem

/-- The grouping pass succeeds on in-range items and yields a valid map. -/
lemma buildGroups_some (r : Recipe) :
    ∀ (items : List Item) (m : List (String × List Nat)),
      (∀ idx, Item.ingredient idx ∈ items →
        (r.ingredients[idx]?).isSome = true) →
      groupsValid r m →
      ∃ gs, buildGroups r items m = some gs ∧ groupsValid r gs := by
  intro items
  induction items with
  | nil =>
    intro m _ hm
    exact ⟨m, rfl, hm⟩
  | cons it rest ih =>
    intro m hitems hm
    cases it with
    | ingredient idx =>
      have hidx := hitems idx (List.mem_cons_self _ _)
      obtain ⟨igr, hig⟩ := Option.isSome_iff_exists.mp hidx
      obtain ⟨gs, hgs, hvalid⟩ := ih (alInsert m igr.name idx)
        (fun j hj => hitems j (List.mem_cons_of_mem _ hj))
        (alInsert_valid r m igr.name idx hm hidx)
      exact ⟨gs, by simp [buildGroups, hig, hgs], hvalid⟩
    | text v =>
      obtain ⟨gs, hgs, hvalid⟩ := ih m
        (fun j hj => hitems j (List.mem_cons_of_mem _ hj)) hm
      exact ⟨gs, by simpa [buildGroups] using hgs, hvalid⟩
    | cookware i =>
      obtain ⟨gs, hgs, hvalid⟩ := ih m
        (fun j hj => hitems j (List.mem_cons_of_mem _ hj)) hm
      exact ⟨gs, by simpa [buildGroups] using hgs, hvalid⟩
    | timer i =>
      obtain ⟨gs, hgs, hvalid⟩ := ih m
        (fun j hj => hitems j (List.mem_cons_of_mem _ hj)) hm
      exact ⟨gs, by simpa [buildGroups] using hgs, hvalid⟩
    | inlineQuantity i =>
      obtain ⟨gs, hgs, hvalid⟩ := ih m
        (fun j hj => hitems j (List.mem_cons_of_mem _ hj)) hm
      exact ⟨gs, by simpa [buildGroups] using hgs, hvalid⟩

/-- The retain pass succeeds on in-range indices. -/
lemma retainLoop_isSome (r : Recipe) :
    ∀ (g : List Nat), (∀ i ∈ g, (r.ingredients[i]?).isSome = true) →
      (retainLoop r g).isSome = true := by
  intro g
  induction g with
  | nil => intro _; rfl
  | cons i rest ih =>
    intro hg
    obtain ⟨igr, hig⟩ := Option.isSome_iff_exists.mp
      (hg i (List.mem_cons_self _ _))
    obtain ⟨g', hg'⟩ := Option.isSome_iff_exists.mp
      (ih (fun j hj => hg j (List.mem_cons_of_mem _ hj)))
    simp [retainLoop, keepIgr, hig, hg']

/-- Filtering a valid nonempty group succeeds. -/
lemma filterGroup_isSome (r : Recipe) (g : List Nat) (hne : g ≠ [])
    (hv : ∀ i ∈ g, (r.ingredients[i]?).isSome = true) :
    (filterGroup r g).isSome = true := by
  obtain ⟨first, hfirst⟩ : ∃ a, g.head? = some a := by
    cases g with
    | nil => exact absurd rfl hne
    | cons a l => exact ⟨a, rfl⟩
  obtain ⟨g', hg'⟩ := Option.isSome_iff_exists.mp (retainLoop_isSome r g hv)
  simp [filterGroup, hfirst, hg']

/-- Filtering a valid map succeeds. -/
lemma filterGroupsLoop_isSome (r : Recipe) :
    ∀ (gs : List (String × List Nat)), groupsValid r gs →
      (filterGroupsLoop r gs).isSome = true := by
  intro gs
  induction gs with
  | nil => intro _; rfl
  | cons kv rest ih =>
    obtain ⟨k, v⟩ := kv
    intro hv
    have hhead := hv (k, v) (List.mem_cons_self _ _)
    obtain ⟨v', hv'⟩ := Option.isSome_iff_exists.mp
      (filterGroup_isSome r v hhead.1 hhead.2)
    obtain ⟨rest', hrest'⟩ := Option.isSome_iff_exists.mp
      (ih (fun q hq => hv q (List.mem_cons_of_mem _ hq)))
    simp [filterGroupsLoop, hv', hrest']

/-- A lookup is defined exactly when the key occurs. -/
lemma alookup_isSome_iff (l : List (String × List Nat)) (k : String) :
    (alookup l k).isSome = true ↔ k ∈ l.map Prod.fst := by
  induction l with
  | nil => simp [alookup]
  | cons kv rest ih =>
    obtain ⟨k', v⟩ := kv
    by_cases hk : k' = k
    · subst hk
      simp [alookup]
    · simp [alookup, hk, ih, Ne.symm hk]

/-- Inserting makes the inserted key present. -/
lemma alookup_alInsert_self (m : List (String × List Nat)) (k : String)
    (v : Nat) : (alookup (alInsert m k v) k).isSome = true := by
  rw [alookup_isSome_iff]
  exact (alInsert_keys_mem m k v k).mpr (Or.inr rfl)

/-- Inserting preserves present keys. -/
lemma alookup_alInsert_mono (m : List (String × List Nat)) (k k' : String)
    (v : Nat) (h : (alookup m k').isSome = true) :
    (alookup (alInsert m k v) k').isSome = true := by
  rw [alookup_isSome_iff] at h ⊢
  exact (alInsert_keys_mem m k v k').mpr (Or.inl h)

/-- The grouping pass preserves present keys. -/
lemma buildGroups_key_mono (r : Recipe) :
    ∀ (items : List Item) (m gs : List (String × List Nat)) (k : String),
      buildGroups r items m = some gs → (alookup m k).isSome = true →
      (alookup gs k).isSome = true := by
  intro items
  induction items with
  | nil =>
    intro m gs k h hk
    simp only [buildGroups, Option.some.injEq] at h
    subst h
    exact hk
  | cons it rest ih =>
    intro m gs k h hk
    cases it with
    | ingredient idx =>
      simp only [buildGroups] at h
      cases hig : r.ingredients[idx]? with
      | none => rw [hig] at h; simp at h
      | some igr =>
        rw [hig] at h
        simp only [Option.bind_eq_bind, Option.some_bind] at h
        exact ih _ _ k h (alookup_alInsert_mono m igr.name k idx hk)
    | text v => exact ih _ _ k h hk
    | cookware i => exact ih _ _ k h hk
    | timer i => exact ih _ _ k h hk
    | inlineQuantity i => exact ih _ _ k h hk

/-- After grouping, every ingredient item's name is a key. -/
lemma buildGroups_key (r : Recipe) :
    ∀ (items : List Item) (m gs : List (String × List Nat)),
      buildGroups r items m = some gs →
      ∀ idx igr, Item.ingredient idx ∈ items →
        r.ingredients[idx]? = some igr →
        (alookup gs igr.name).isSome = true := by
  intro items
  induction items with
  | nil =>
    intro m gs _ idx igr hmem
    simp at hmem
  | cons it rest ih =>
    intro m gs h idx igr hmem hig
    cases it with
    | ingredient idx' =>
      simp only [buildGroups] at h
      cases hig' : r.ingredients[idx']? with
      | none => rw [hig'] at h; simp at h
      | some igr' =>
        rw [hig'] at h
        simp only [Option.bind_eq_bind, Option.some_bind] at h
        rcases List.mem_cons.mp hmem with heq | hmem'
        · have hii : idx = idx' := by injection heq
          subst hii
          have hname : igr.name = igr'.name := by
            rw [hig] at hig'
            rw [Option.some.inj hig']
          rw [hname]
          exact buildGroups_key_mono r rest _ gs igr'.name h
            (alookup_alInsert_self m igr'.name idx)
        · exact ih _ _ h idx igr hmem' hig
    | text v =>
      rcases List.mem_cons.mp hmem with heq | hmem'
      · exact absurd heq (by simp)
      · exact ih _ _ h idx igr hmem' hig
    | cookware i =>
      rcases List.mem_cons.mp hmem with heq | hmem'
      · exact absurd heq (by simp)
      · exact ih _ _ h idx igr hmem' hig
    | timer i =>
      rcases List.mem_cons.mp hmem with heq | hmem'
      · exact absurd heq (by simp)
      · exact ih _ _ h idx igr hmem' hig
    | inlineQuantity i =>
      rcases List.mem_cons.mp hmem with heq | hmem'
      · exact absurd heq (by simp)
      · exact ih _ _ h idx igr hmem' hig

/-- The filter pass preserves present keys. -/
lemma filterGroupsLoop_key (r : Recipe) (gs gs' : List (String × List Nat))
    (h : filterGroupsLoop r gs = some gs') (k : String)
    (hk : (alookup gs k).isSome = true) : (alookup gs' k).isSome = true := by
  rw [alookup_isSome_iff] at hk ⊢
  rw [filterGroupsLoop_keys r gs gs' h]
  exact hk

end CookHuman

namespace CookHuman

/-- The subscript helper succeeds whenever its key is present. -/
lemma writeIgrCount_isSome (b : String) (dedup : List (String × List Nat))
    (idx : Nat) (name : String) (h : (alookup dedup name).isSome = true) :
    (writeIgrCount b dedup idx name).isSome = true := by
  obtain ⟨entries, he⟩ := Option.isSome_iff_exists.mp h
  unfold writeIgrCount
  rw [he]
  simp only [Option.bind_eq_bind, Option.some_bind]
  by_cases hl : entries.length ≤ 1
  · simp [hl]
  · simp only [hl, if_false]
    cases entries.findIdx? (· = idx) <;> simp

/-- A timer with a quantity or a name renders. -/
lemma timerText_isSome (t : Timer)
    (h : (t.quantity.isSome || t.name.isSome) = true) :
    (timerText t).isSome = true := by
  rcases hq : t.quantity with _ | q <;> rcases hn : t.name with _ | n
  · rw [hq, hn] at h; simp at h
  all_goals simp [timerText, hq, hn]

/-- A well-formed ingredient item has an in-range index. -/
lemma itemWF_ingredient_isSome (r : Recipe) (sec : Section) (idx : Nat)
    (hw : itemWF r sec (Item.ingredient idx) = true) :
    (r.ingredients[idx]?).isSome = true := by
  cases hg : r.ingredients[idx]? with
  | none => simp [itemWF, hg] at hw
  | some igr => simp

/-- A well-formed ingredient item's cross-reference resolves. -/
lemma itemWF_interRef (r : Recipe) (sec : Section) (idx : Nat)
    (igr : Ingredient) (hw : itemWF r sec (Item.ingredient idx) = true)
    (hig : r.ingredients[idx]? = some igr) :
    (interRefText igr sec).isSome = true := by
  simp only [itemWF, hig] at hw
  cases href : igr.referencesTo with
  | none => simp [interRefText, href]
  | some p =>
    obtain ⟨t, tgt⟩ := p
    cases tgt with
    | ingredient => simp [interRefText, href]
    | sect => simp [interRefText, href]
    | step =>
      rw [href] at hw
      cases hc : sec.content[t]? with
      | none => simp [hc] at hw
      | some c =>
        cases c with
        | text txt => simp [hc] at hw
        | step st =>
          simp [interRefText, href, hc, Content.unwrapStep]

/-- The item walk succeeds on well-formed items whose names are all keys. -/
lemma stepTextCore_isSome (r : Recipe) (sec : Section)
    (dedup : List (String × List Nat)) :
    ∀ (items : List Item) (acc : StepAcc),
      (∀ it ∈ items, itemWF r sec it = true) →
      (∀ idx igr, Item.ingredient idx ∈ items →
        r.ingredients[idx]? = some igr →
        (alookup dedup igr.name).isSome = true) →
      (stepTextCore r dedup items acc).isSome = true := by
  intro items
  induction items with
  | nil => intro acc _ _; rfl
  | cons it rest ih =>
    intro acc hwf hkey
    have hwfr : ∀ x ∈ rest, itemWF r sec x = true :=
      fun x hx => hwf x (List.mem_cons_of_mem _ hx)
    have hkeyr : ∀ idx igr, Item.ingredient idx ∈ rest →
        r.ingredients[idx]? = some igr →
        (alookup dedup igr.name).isSome = true :=
      fun idx igr hx hig => hkey idx igr (List.mem_cons_of_mem _ hx) hig
    cases it with
    | text v =>
      simp only [stepTextCore]
      exact ih _ hwfr hkeyr
    | ingredient idx =>
      obtain ⟨igr, hg⟩ := Option.isSome_iff_exists.mp
        (itemWF_ingredient_isSome r sec idx (hwf _ (List.mem_cons_self _ _)))
      have hkey0 := hkey idx igr (List.mem_cons_self _ _) hg
      obtain ⟨tp, htp⟩ := Option.isSome_iff_exists.mp
        (writeIgrCount_isSome (acc.text ++ paint igr.displayName) dedup idx
          igr.name hkey0)
      obtain ⟨g, hgg⟩ := Option.isSome_iff_exists.mp hkey0
      obtain ⟨text', pos⟩ := tp
      simp only [stepTextCore, hg, htp, hgg, Option.bind_eq_bind,
        Option.some_bind]
      exact ih _ hwfr hkeyr
    | cookware idx =>
      have hcw : (r.cookware[idx]?).isSome = true := by
        have hwfi := hwf _ (List.mem_cons_self _ _)
        simpa [itemWF] using hwfi
      obtain ⟨cw, hc⟩ := Option.isSome_iff_exists.mp hcw
      simp only [stepTextCore, hc, Option.bind_eq_bind, Option.some_bind]
      exact ih _ hwfr hkeyr
    | timer idx =>
      have hwfi := hwf _ (List.mem_cons_self _ _)
      have ht : ∃ t, r.timers[idx]? = some t ∧
          (t.quantity.isSome || t.name.isSome) = true := by
        cases hg : r.timers[idx]? with
        | none => simp [itemWF, hg] at hwfi
        | some t => exact ⟨t, rfl, by simpa [itemWF, hg] using hwfi⟩
      obtain ⟨t, hg, hqn⟩ := ht
      obtain ⟨s, hs⟩ := Option.isSome_iff_exists.mp (timerText_isSome t hqn)
      simp only [stepTextCore, hg, hs, Option.bind_eq_bind, Option.some_bind]
      exact ih _ hwfr hkeyr
    | inlineQuantity idx =>
      have hq : (r.inlineQuantities[idx]?).isSome = true := by
        have hwfi := hwf _ (List.mem_cons_self _ _)
        simpa [itemWF] using hwfi
      obtain ⟨q, hg⟩ := Option.isSome_iff_exists.mp hq
      simp only [stepTextCore, hg, Option.bind_eq_bind, Option.some_bind]
      exact ih _ hwfr hkeyr

/-- A legend entry renders whenever its cross-reference resolves. -/
lemma legendEntryAppend_isSome (sec : Section) (b : String) (igr : Ingredient)
    (pos : Option Nat) (h : (interRefText igr sec).isSome = true) :
    (legendEntryAppend sec b igr pos).isSome = true := by
  obtain ⟨src, hsrc⟩ := Option.isSome_iff_exists.mp h
  cases src <;> simp [legendEntryAppend, hsrc]

/-- The legend loop renders whenever all cross-references resolve. -/
lemma legendLoop_isSome (sec : Section) :
    ∀ (line : List (Ingredient × Option Nat)) (b : String),
      (∀ e ∈ line, (interRefText e.1 sec).isSome = true) →
      (legendLoop sec b line).isSome = true := by
  intro line
  induction line with
  | nil => intro b _; rfl
  | cons e rest ih =>
    intro b hall
    obtain ⟨igr, pos⟩ := e
    obtain ⟨e', he'⟩ := Option.isSome_iff_exists.mp
      (legendEntryAppend_isSome sec b igr pos
        (hall _ (List.mem_cons_self _ _)))
    simp only [legendLoop, he', Option.bind_eq_bind, Option.some_bind]
    exact ih _ (fun x hx => hall x (List.mem_cons_of_mem _ hx))

/-- The legend line renders whenever all cross-references resolve. -/
lemma legendText_isSome (sec : Section)
    (line : List (Ingredient × Option Nat))
    (h : ∀ e ∈ line, (interRefText e.1 sec).isSome = true) :
    (legendText sec line).isSome = true := by
  unfold legendText
  by_cases he : line.isEmpty
  · simp [he]
  · obtain ⟨s, hs⟩ := Option.isSome_iff_exists.mp (legendLoop_isSome sec line "[" h)
    simp [he, hs]

/-- A well-formed step renders. -/
lemma stepText_isSome (r : Recipe) (sec : Section) (st : Step)
    (hwf : stepWF r sec st = true) : (stepText r sec st).isSome = true := by
  have hitems : ∀ it ∈ st.items, itemWF r sec it = true := by
    simpa [stepWF, List.all_eq_true] using hwf
  have hvalid : ∀ idx, Item.ingredient idx ∈ st.items →
      (r.ingredients[idx]?).isSome = true :=
    fun idx hmem => itemWF_ingredient_isSome r sec idx (hitems _ hmem)
  obtain ⟨gs, hgs, hgv⟩ := buildGroups_some r st.items [] hvalid
    (by intro p hp; simp at hp)
  obtain ⟨dedup, hded⟩ := Option.isSome_iff_exists.mp
    (filterGroupsLoop_isSome r gs hgv)
  have hbuild : buildStepIgrsDedup st r = some dedup := by
    simp [buildStepIgrsDedup, hgs, hded]
  have hkey : ∀ idx igr, Item.ingredient idx ∈ st.items →
      r.ingredients[idx]? = some igr →
      (alookup dedup igr.name).isSome = true := by
    intro idx igr hmem hig
    exact filterGroupsLoop_key r gs dedup hded _
      (buildGroups_key r st.items [] gs hgs idx igr hmem hig)
  obtain ⟨acc, hacc⟩ := Option.isSome_iff_exists.mp
    (stepTextCore_isSome r sec dedup st.items ⟨"", []⟩ hitems hkey)
  have hline : ∀ e ∈ acc.line, (interRefText e.1 sec).isSome = true := by
    intro e he
    rcases stepTextCore_line_mem r dedup st.items _ _ hacc e he with
      hin | ⟨idx, g, hmem, hig, _, _⟩
    · simp at hin
    · exact itemWF_interRef r sec idx e.1 (hitems _ hmem) hig
  obtain ⟨legend, hleg⟩ := Option.isSome_iff_exists.mp
    (legendText_isSome sec acc.line hline)
  simp [stepText, hbuild, stepTextWithDedup, hacc, hleg]

/-- Well-formed content renders. -/
lemma contentWrites_isSome (r : Recipe) (sec : Section) (c : Content)
    (hwf : sectionWF r sec = true) (hc : c ∈ sec.content) :
    (contentWrites r sec c).isSome = true := by
  cases c with
  | text t => simp [contentWrites]
  | step st =>
    have hstep : stepWF r sec st = true := by
      have := (List.all_eq_true.mp hwf) (Content.step st) hc
      simpa using this
    obtain ⟨p, hp⟩ := Option.isSome_iff_exists.mp
      (stepText_isSome r sec st hstep)
    obtain ⟨text, legend⟩ := p
    simp [contentWrites, hp]

/-- The content loop of a well-formed section renders. -/
lemma contentsLoop_isSome (r : Recipe) (sec : Section)
    (hwf : sectionWF r sec = true) :
    ∀ (cs : List Content), (∀ c ∈ cs, c ∈ sec.content) →
      (contentsLoop r sec cs).isSome = true := by
  intro cs
  induction cs with
  | nil => intro _; rfl
  | cons c rest ih =>
    intro hsub
    obtain ⟨w, hw⟩ := Option.isSome_iff_exists.mp
      (contentWrites_isSome r sec c hwf (hsub _ (List.mem_cons_self _ _)))
    obtain ⟨ws, hws⟩ := Option.isSome_iff_exists.mp
      (ih (fun x hx => hsub x (List.mem_cons_of_mem _ hx)))
    simp [contentsLoop, hw, hws]

/-- A well-formed section renders. -/
lemma sectionWrites_isSome (r : Recipe) (si : Nat) (sec : Section)
    (hwf : sectionWF r sec = true) : (sectionWrites r si sec).isSome = true := by
  obtain ⟨ws, hws⟩ := Option.isSome_iff_exists.mp
    (contentsLoop_isSome r sec hwf sec.content (fun c hc => hc))
  simp [sectionWrites, hws]

/-- The section loop of a well-formed recipe renders. -/
lemma sectionsLoop_isSome (r : Recipe) :
    ∀ (secs : List Section) (si : Nat),
      (∀ sec ∈ secs, sectionWF r sec = true) →
      (sectionsLoop r si secs).isSome = true := by
  intro secs
  induction secs with
  | nil => intro si _; rfl
  | cons sec rest ih =>
    intro si hall
    obtain ⟨w, hw⟩ := Option.isSome_iff_exists.mp
      (sectionWrites_isSome r si sec (hall _ (List.mem_cons_self _ _)))
    obtain ⟨ws, hws⟩ := Option.isSome_iff_exists.mp
      (ih (si + 1) (fun x hx => hall x (List.mem_cons_of_mem _ hx)))
    simp [sectionsLoop, hw, hws]

/-- The steps block of a well-formed recipe renders. -/
lemma stepsWrites_isSome (r : Recipe) (hwf : recipeWF r = true) :
    (stepsWrites r).isSome = true := by
  have hall : ∀ sec ∈ r.sections, sectionWF r sec = true := by
    simpa [recipeWF, List.all_eq_true] using hwf
  obtain ⟨ws, hws⟩ := Option.isSome_iff_exists.mp
    (sectionsLoop_isSome r r.sections 0 hall)
  simp [stepsWrites, hws]

/-- A well-formed recipe's full chunk list is defined. -/
lemma printHumanWrites_isSome (r : Recipe) (name : String)
    (hwf : recipeWF r = true) : (printHumanWrites r name).isSome = true := by
  obtain ⟨h, hh⟩ := Option.isSome_iff_exists.mp (headerWrites_isSome r name)
  obtain ⟨st, hst⟩ := Option.isSome_iff_exists.mp (stepsWrites_isSome r hwf)
  simp [printHumanWrites, hh, hst]

/-- C8: the only error the render can return is the sink's: on a well-formed
recipe the render completes, an all-accepting sink yields `ok` regardless of
the data (scale outcomes included), and the first rejected write aborts the
render with exactly that write's error. -/
theorem C8_errors_only_from_sink (r : Recipe) (name : String)
    (hwf : recipeWF r = true) :
    (∃ ws, printHumanWrites r name = some ws) ∧
    (∀ accept : Nat → Bool, (∀ k, accept k = true) →
       printHuman r name accept = some (Except.ok ())) ∧
    (∀ (accept : Nat → Bool) (k : Nat) (ws : List String),
       printHumanWrites r name = some ws → k < ws.length →
       (∀ j, j < k → accept j = true) → accept k = false →
       printHuman r name accept = some (Except.error k)) := by
  obtain ⟨ws₀, hws₀⟩ := Option.isSome_iff_exists.mp
    (printHumanWrites_isSome r name hwf)
  refine ⟨⟨ws₀, hws₀⟩, fun accept hacc => ?_, fun accept k ws hws hk hpre hfail => ?_⟩
  · simp [printHuman, hws₀, runWrites_ok accept hacc]
  · have := runWrites_first_error accept ws 0 k hk
      (fun j hj => by simpa using hpre j hj) (by simpa using hfail)
    simp only [printHuman, hws, Option.map_some']
    rw [this]
    simp

end CookHuman

namespace CookHuman

/-- The C8 witness recipe: metadata, one section whose step uses an
ingredient, a timer, a cookware item and an inline quantity, plus a Fixed
aggregation entry. -/
def c8Recipe : Recipe :=
  ⟨⟨some "🍲", some ["dinner"], some "A demo.", none, none,
    some (RecipeTime.total 30), some [2, 4], [("difficulty", "easy")], false⟩,
   [⟨some "main", [Content.step ⟨1,
      [Item.text "Cook ", Item.ingredient 0, Item.text " for ",
       Item.timer 0, Item.text " in ", Item.cookware 0, Item.text " at ",
       Item.inlineQuantity 0]⟩]⟩],
   [⟨"salt", "salt", some ⟨"1", some "tsp"⟩, none, false, true, none⟩],
   [⟨"pan", "pan", false, true, ["1"], none⟩],
   [⟨some ⟨"10", some "min"⟩, none⟩], [⟨"180", some "C"⟩],
   [⟨⟨"salt", "salt", some ⟨"1", some "tsp"⟩, none, false, true, none⟩,
     [⟨"1", some "tsp"⟩], some ScaleOutcome.fixed⟩],
   none, true⟩

/-- Witness for C8: with an all-accepting sink, the render returns ok. -/
theorem C8_witness :
    printHuman c8Recipe "demo" (fun _ => true) = some (Except.ok ()) :=
  (C8_errors_only_from_sink c8Recipe "demo" (by decide)).2.1
    (fun _ => true) (fun _ => rfl)

end CookHuman
